import Mathlib

/-!
Shallow embedding of the dual-iso subgraph-matching engine (Rust crate):
`src/graph.rs` (compressed graph representation and builder),
`src/iso.rs` (sorted-set primitives, simple/dual simulation, backtracking
search, the exported entry points `simple_iso` and `dual_iso`).

Conventions of the embedding:
* `usize` values are `Nat`; `usize::max_value()` is the explicit constant
  `USIZE_MAX`.  No arithmetic here can overflow (only comparisons,
  increments bounded by list lengths), so `Nat` is faithful.
* Rust panics (`unwrap`, out-of-range indexing, `panic!` calls) are
  modelled by `Option`: a `none` result means the Rust code panics.
* Rust `HashMap` contents are association lists; iteration order of a
  `HashMap` is unspecified in Rust, so `GraphBuilder.buildWith` takes the
  iteration sequences as explicit arguments (theorems either quantify over
  them or exhibit a concrete order).
* The `while is_updated` loop of `dual_simulation` does not terminate on
  every input, so it is modelled with explicit fuel (one unit per pass);
  `simple_simulation` always terminates, which is proved below
  (`simple_simulation_fuel_stable`), so its wrapper runs the fuelled loop
  with the sufficient bound `total_len c + 1`.
-/

namespace DualIso

/-- The value of `usize::max_value()` on a 64-bit target, used as the
initial `prev` sentinel in `intersect_sorted`. -/
def USIZE_MAX : Nat := 2 ^ 64 - 1

/-- Lookup in an association list modelling `HashMap::get`. -/
def assocFind {α β : Type} [DecidableEq α] : List (α × β) → α → Option β
  | [], _ => none
  | (k, v) :: rest, a => if k = a then some v else assocFind rest a

/-- Append `x` to the list stored under key `k`, inserting the key with a
fresh singleton list when absent: models `entry(k).or_insert(vec![]).push(x)`. -/
def assocAppend {α : Type} [DecidableEq α] : List (α × List Nat) → α → Nat → List (α × List Nat)
  | [], k, x => [(k, [x])]
  | (k', v) :: rest, k, x =>
    if k' = k then (k', v ++ [x]) :: rest else (k', v) :: assocAppend rest k x

/-- Decidable test that a list of naturals is ascending (non-strict). -/
def sortedAsc : List Nat → Bool
  | [] => true
  | [_] => true
  | a :: b :: rest => a ≤ b && sortedAsc (b :: rest)

/-- Decidable test that a list of naturals is strictly ascending
(hence duplicate-free). -/
def strictAsc : List Nat → Bool
  | [] => true
  | [_] => true
  | a :: b :: rest => a < b && strictAsc (b :: rest)

/-! ## Sorted-set primitives (`src/iso.rs`, lines 147-215) -/

/-- The loop of `do_intersect_sorted` with a structural fuel: each step
consumes one element of one sequence, so `fuel = left.length +
right.length` tracks the loop exactly and the zero-fuel arm (chosen to
coincide with the loop-exit value `false`) is never reached from the
wrapper below — `do_intersect_fuel_stable` proves the fuel is
irrelevant beyond that bound.  Advancing pointer `i` (resp. `j`) is
dropping the head of `left` (resp. `right`). -/
def do_intersect_fuel : Nat → List Nat → List Nat → Bool
  | _, [], _ => false
  | _, _ :: _, [] => false
  | 0, _ :: _, _ :: _ => false
  | fuel + 1, a :: as_, b :: bs =>
    if a < b then do_intersect_fuel fuel as_ (b :: bs)
    else if b < a then do_intersect_fuel fuel (a :: as_) bs
    else true

/-- `do_intersect_sorted(left, right)`: the two-pointer scan returning
whether the two sequences share an element. -/
def do_intersect_sorted (left right : List Nat) : Bool :=
  do_intersect_fuel (left.length + right.length) left right

/-- Loop of `intersect_sorted`.  The Rust code keeps `prev`, updated on
each accepted match by `prev = intersect[count]` — which reads the
still-zero slot of the preallocated output buffer, so `prev` is
`usize::max_value()` before the first accepted match and `0` afterwards.
The recursion reproduces exactly that behaviour; the structural fuel
`left.length + right.length` tracks the two-pointer loop exactly (see
`intersect_fuel_stable`), the zero-fuel arm coinciding with the
loop-exit value `[]`. -/
def intersect_fuel : Nat → List Nat → List Nat → Nat → List Nat
  | _, [], _, _ => []
  | _, _ :: _, [], _ => []
  | 0, _ :: _, _ :: _, _ => []
  | fuel + 1, a :: as_, b :: bs, prev =>
    if a < b then intersect_fuel fuel as_ (b :: bs) prev
    else if b < a then intersect_fuel fuel (a :: as_) bs prev
    else if a ≠ prev then a :: intersect_fuel fuel as_ bs 0
    else intersect_fuel fuel as_ bs prev

/-- `intersect_sorted(left, right)` from `src/iso.rs`. -/
def intersect_sorted (left right : List Nat) : List Nat :=
  intersect_fuel (left.length + right.length) left right USIZE_MAX

/-- Loop of `union_into_sorted`.  Faithful to the Rust code including its
stale bound: `m` is captured from `left.len()` before the loop and is not
updated when `left.insert(i, _)` grows the vector, and the trailing
`while j < n` loop appends the unprocessed tail of `right`.  The
structural fuel dominates the loop measure `(m - i) + (n - j)` (each
iteration advances `i` or `j`), so with the wrapper fuel `m + n` the
zero-fuel arm — chosen to coincide with the loop-exit value — is never
reached; `union_into_loop_stable` proves the fuel is irrelevant beyond
the measure. -/
def union_into_loop (right : List Nat) (m n : Nat) : Nat → List Nat → Nat → Nat → List Nat
  | 0, left, _, j => left ++ right.drop j
  | fuel + 1, left, i, j =>
    if i < m ∧ j < n then
      let a := left.getD i 0
      let b := right.getD j 0
      if a < b then union_into_loop right m n fuel left (i + 1) j
      else if a > b then union_into_loop right m n fuel (left.insertIdx i b) i (j + 1)
      else union_into_loop right m n fuel left (i + 1) (j + 1)
    else left ++ right.drop j

/-- `union_into_sorted(left, right)` from `src/iso.rs`: merges `right`
into `left` in place. -/
def union_into_sorted (left right : List Nat) : List Nat :=
  union_into_loop right left.length right.length
    (left.length + right.length) left 0 0

/-! ## Graph representation (`src/graph.rs`) -/

/-- The immutable graph: dense node ids, label map, label index, and the
compressed adjacency (`offsets` into `lists`, each adjacency block stored
as degree followed by the sorted neighbor ids). -/
structure Graph (T : Type) where
  node_count : Nat
  relationship_count : Nat
  node_labels : List (Nat × T)
  label_idx : List (T × List Nat)
  offsets : List Nat
  lists : List Nat

variable {T : Type} [DecidableEq T]

/-- `Graph::node_label`: validates the id then unwraps the map entry. -/
def Graph.node_label (g : Graph T) (node_id : Nat) : Option T :=
  if node_id < g.node_count then assocFind g.node_labels node_id else none

/-- `Graph::nodes_by_label`: `self.label_idx.get(label).unwrap()` — the
unwrap panics (`none`) when the label is absent from the index. -/
def Graph.nodes_by_label (g : Graph T) (label : T) : Option (List Nat) :=
  assocFind g.label_idx label

/-- `Graph::degree`: validates the id, then reads `lists[offsets[id]]`. -/
def Graph.degree (g : Graph T) (node_id : Nat) : Option Nat :=
  if node_id < g.node_count then
    match g.offsets.get? node_id with
    | none => none
    | some off => g.lists.get? off
  else none

/-- `Graph::neighbors`: validates the id, then returns the slice
`lists[offset+1 .. offset+1+degree]` (out-of-range slicing panics). -/
def Graph.neighbors (g : Graph T) (node_id : Nat) : Option (List Nat) :=
  if node_id < g.node_count then
    match g.offsets.get? node_id with
    | none => none
    | some off =>
      match g.lists.get? off with
      | none => none
      | some deg =>
        if off + 1 + deg ≤ g.lists.length then
          some ((g.lists.drop (off + 1)).take deg)
        else none
  else none

/-- The staged, mutable builder (`GraphBuilder`). -/
structure GraphBuilder (T : Type) where
  node_count : Nat
  relationship_count : Nat
  node_labels : List (Nat × T)
  adjacency_lists : List (Nat × List Nat)
deriving DecidableEq

/-- The empty builder (`GraphBuilder::new`). -/
def GraphBuilder.new (T : Type) : GraphBuilder T :=
  { node_count := 0, relationship_count := 0, node_labels := [], adjacency_lists := [] }

/-- `GraphBuilder::add_node`: panics (`none`) when `node_id > node_count`;
re-adding an existing id is a no-op preserving the original label. -/
def GraphBuilder.add_node (b : GraphBuilder T) (node_id : Nat) (node_label : T) :
    Option (GraphBuilder T) :=
  if node_id > b.node_count then none
  else if (assocFind b.node_labels node_id).isSome then some b
  else some { b with
    node_labels := b.node_labels ++ [(node_id, node_label)],
    node_count := b.node_count + 1 }

/-- `GraphBuilder::add_relationship`: panics (`none`) when either endpoint
has not been added; appends the target to the source's staged list. -/
def GraphBuilder.add_relationship (b : GraphBuilder T) (start_node end_node : Nat) :
    Option (GraphBuilder T) :=
  if (assocFind b.node_labels start_node).isNone then none
  else if (assocFind b.node_labels end_node).isNone then none
  else some { b with
    adjacency_lists := assocAppend b.adjacency_lists start_node end_node,
    relationship_count := b.relationship_count + 1 }

/-- One step of the adjacency-compilation loop of `GraphBuilder::build`:
sort the staged list (`sort_unstable`), record the offset, append the
degree and the sorted list to `lists`. -/
def buildAdjStep (ol : List Nat × List Nat) (entry : Nat × List Nat) : List Nat × List Nat :=
  let sorted := List.insertionSort (· ≤ ·) entry.2
  (ol.1.set entry.1 ol.2.length, ol.2 ++ entry.2.length :: sorted)

/-- `GraphBuilder::build`.  The two `HashMap` iterations (over
`adjacency_lists` and over `node_labels`) have unspecified order in Rust,
so the orders are explicit arguments: `adjOrder` and `labOrder` are the
sequences of entries the iterations yield.  Note the label index is
populated without any sort. -/
def GraphBuilder.buildWith (b : GraphBuilder T)
    (adjOrder : List (Nat × List Nat)) (labOrder : List (Nat × T)) : Graph T :=
  let ol := adjOrder.foldl buildAdjStep (List.replicate b.node_count 0, [0])
  let idx := labOrder.foldl (fun acc e => assocAppend acc e.2 e.1) []
  { node_count := b.node_count
    relationship_count := b.relationship_count
    node_labels := b.node_labels
    label_idx := idx
    offsets := ol.1
    lists := ol.2 }

/-! ## Simulation engine (`src/iso.rs`, lines 66-145)

A candidate-set sequence is one list of graph-node ids per pattern node.
The Rust loops mutate the sequence in place; the embedding threads it
through explicit state-passing.  A step over one pattern edge can end in
three ways: a panic (invalid index / `unwrap`), an early `return false`
(carrying the candidate state at that moment — the caller `simple_iso`
ignores the boolean but keeps the mutated state), or normal continuation
with the accumulated `is_updated` flag. -/

/-- Candidate sets: one list of graph node ids per pattern node id. -/
abbrev Candidates := List (List Nat)

/-- Total number of candidate entries across all sets; the termination
potential of the simulation loops. -/
def total_len (c : Candidates) : Nat := (c.map List.length).sum

/-- Outcome of a portion of a simulation pass. -/
inductive StepRes where
  | panicked : StepRes
  | failed (c : Candidates) : StepRes
  | ok (c : Candidates) (updated : Bool) : StepRes
deriving DecidableEq, Repr

/-- Inner loop of `simple_simulation` over the candidates of `u_p`
(`for u_g in &*candidates[u_p]`): keep `u_g` iff its graph neighbors
intersect `candidates[v_p]` (`cv`); a dropped candidate sets the updated
flag.  Returns `none` when `graph.neighbors(u_g)` panics. -/
def filterCands (g : Graph T) (cv : List Nat) : List Nat → Option (List Nat × Bool)
  | [] => some ([], false)
  | u :: rest =>
    match g.neighbors u with
    | none => none
    | some nb =>
      match filterCands g cv rest with
      | none => none
      | some (tail, upd) =>
        if do_intersect_sorted nb cv then some (u :: tail, upd) else some (tail, true)

/-- One `(u_p, v_p)` edge step of `simple_simulation`: filter
`candidates[u_p]` against `candidates[v_p]`; `return false` when the
refined set is empty (without writing it), else write it back. -/
def simpleStep (g : Graph T) (c : Candidates) (u_p v_p : Nat) : StepRes :=
  match c.get? u_p, c.get? v_p with
  | some cu, some cv =>
    match filterCands g cv cu with
    | none => .panicked
    | some (ugnew, upd) =>
      if ugnew.isEmpty then .failed c
      else .ok (c.set u_p ugnew) upd
  | _, _ => .panicked

/-- Loop of `simple_simulation` over the pattern neighbors `v_p` of a
fixed `u_p`, threading the candidate state and the updated flag. -/
def simpleInner (g : Graph T) (u_p : Nat) : Candidates → Bool → List Nat → StepRes
  | c, upd, [] => .ok c upd
  | c, upd, v_p :: rest =>
    match simpleStep g c u_p v_p with
    | .panicked => .panicked
    | .failed c' => .failed c'
    | .ok c' u' => simpleInner g u_p c' (upd || u') rest

/-- Loop of `simple_simulation` over the pattern nodes `u_p`
(`for u_p in 0..pattern.node_count()`). -/
def simpleOuter (g p : Graph T) : Candidates → Bool → List Nat → StepRes
  | c, upd, [] => .ok c upd
  | c, upd, u_p :: rest =>
    match p.neighbors u_p with
    | none => .panicked
    | some nbs =>
      match simpleInner g u_p c upd nbs with
      | .panicked => .panicked
      | .failed c' => .failed c'
      | .ok c' upd' => simpleOuter g p c' upd' rest

/-- One full pass of the `while is_updated` loop of `simple_simulation`. -/
def simplePass (g p : Graph T) (c : Candidates) : StepRes :=
  simpleOuter g p c false (List.range p.node_count)

/-- The `while is_updated` loop of `simple_simulation`, unrolled with
fuel (one unit per pass).  `none` is a panic or exhausted fuel; the
boolean is the Rust return value, paired with the final mutated state. -/
def simple_simulation_fuel (g p : Graph T) : Nat → Candidates → Option (Candidates × Bool)
  | 0, _ => none
  | fuel + 1, c =>
    match simplePass g p c with
    | .panicked => none
    | .failed c' => some (c', false)
    | .ok c' false => some (c', true)
    | .ok c' true => simple_simulation_fuel g p fuel c'

/-- `simple_simulation` from `src/iso.rs`.  Each pass that sets the
updated flag strictly shrinks `total_len`, so `total_len c + 1` passes
always suffice; `simple_simulation_fuel_stable` below proves this bound
is exact, i.e. this definition is the semantics of the unbounded loop. -/
def simple_simulation (g p : Graph T) (c : Candidates) : Option (Candidates × Bool) :=
  simple_simulation_fuel g p (total_len c + 1) c

/-- Inner loop of `dual_simulation` over the candidates of `u_p`:
accumulates the surviving `u_g` (in order), the running
`union_into_sorted` of all neighbor intersections (`v_g_new`), and the
updated flag set when a `u_g` is dropped. -/
def dualCollect (g : Graph T) (cv : List Nat) :
    List Nat → List Nat → List Nat → Bool → Option (List Nat × List Nat × Bool)
  | [], ugAcc, vgAcc, upd => some (ugAcc, vgAcc, upd)
  | u :: rest, ugAcc, vgAcc, upd =>
    match g.neighbors u with
    | none => none
    | some nb =>
      let inter := intersect_sorted nb cv
      let ugAcc' := if inter.isEmpty then ugAcc else ugAcc ++ [u]
      let upd' := if inter.isEmpty then true else upd
      dualCollect g cv rest ugAcc' (union_into_sorted vgAcc inter) upd'

/-- One `(u_p, v_p)` edge step of `dual_simulation`: `return false` when
the refined source set or the accumulated target union is empty; else set
the updated flag when the union is strictly smaller than
`candidates[v_p]`, then write `candidates[v_p] :=
intersect_sorted(candidates[v_p], v_g_new)` followed by
`candidates[u_p] := u_g_new` (in that order, which matters when
`u_p = v_p`). -/
def dualStep (g : Graph T) (c : Candidates) (u_p v_p : Nat) : StepRes :=
  match c.get? u_p, c.get? v_p with
  | some cu, some cv =>
    match dualCollect g cv cu [] [] false with
    | none => .panicked
    | some (ugnew, vgnew, upd) =>
      if ugnew.isEmpty || vgnew.isEmpty then .failed c
      else
        let upd2 := upd || decide (vgnew.length < cv.length)
        .ok ((c.set v_p (intersect_sorted cv vgnew)).set u_p ugnew) upd2
  | _, _ => .panicked

/-- Loop of `dual_simulation` over the pattern neighbors of `u_p`. -/
def dualInner (g : Graph T) (u_p : Nat) : Candidates → Bool → List Nat → StepRes
  | c, upd, [] => .ok c upd
  | c, upd, v_p :: rest =>
    match dualStep g c u_p v_p with
    | .panicked => .panicked
    | .failed c' => .failed c'
    | .ok c' u' => dualInner g u_p c' (upd || u') rest

/-- Loop of `dual_simulation` over the pattern nodes. -/
def dualOuter (g p : Graph T) : Candidates → Bool → List Nat → StepRes
  | c, upd, [] => .ok c upd
  | c, upd, u_p :: rest =>
    match p.neighbors u_p with
    | none => .panicked
    | some nbs =>
      match dualInner g u_p c upd nbs with
      | .panicked => .panicked
      | .failed c' => .failed c'
      | .ok c' upd' => dualOuter g p c' upd' rest

/-- One full pass of the `while is_updated` loop of `dual_simulation`. -/
def dualPass (g p : Graph T) (c : Candidates) : StepRes :=
  dualOuter g p c false (List.range p.node_count)

/-- The `while is_updated` loop of `dual_simulation` with explicit fuel
(one unit per pass).  Unlike the simple variant, this loop does not
terminate on every input (see the self-loop counterexample below), so no
fuel bound can be hidden in a wrapper. -/
def dual_simulation_fuel (g p : Graph T) : Nat → Candidates → Option (Candidates × Bool)
  | 0, _ => none
  | fuel + 1, c =>
    match dualPass g p c with
    | .panicked => none
    | .failed c' => some (c', false)
    | .ok c' false => some (c', true)
    | .ok c' true => dual_simulation_fuel g p fuel c'

/-! ## Backtracking search and entry points (`src/iso.rs`, lines 8-63) -/

/-- `candidates[..depth].iter().any(|x| x[0] == *v_g)`: the explicit
injectivity check; indexing `x[0]` panics on an empty entry, and `any`
short-circuits on the first hit. -/
def anyHeadEq (v : Nat) : List (List Nat) → Option Bool
  | [] => some false
  | xs :: rest =>
    match xs with
    | [] => none
    | x :: _ => if x = v then some true else anyHeadEq v rest

/-- `candidates.iter().map(|c| c[0])`: heads of all candidate sets;
panics when a set is empty. -/
def headsOf : List (List Nat) → Option (List Nat)
  | [] => some []
  | [] :: _ => none
  | (x :: _) :: rest => (headsOf rest).map (x :: ·)

/-- The `for v_g in &*candidates[depth]` loop of `search`: skip `v_g`
when a previous singleton already chose it; otherwise fix
`candidates[depth] = vec![v_g]`, re-run `simple_simulation`, and on a
successful fixpoint run the one-level-deeper search (passed in as
`deeper`).  Matches are accumulated in discovery order. -/
def searchLoop (g p : Graph T) (deeper : Candidates → Option (List (List Nat)))
    (c : Candidates) (depth : Nat) : List Nat → Option (List (List Nat))
  | [] => some []
  | v :: rest =>
    match anyHeadEq v (c.take depth) with
    | none => none
    | some true => searchLoop g p deeper c depth rest
    | some false =>
      match simple_simulation g p (c.set depth [v]) with
      | none => none
      | some (c2, ok) =>
        if ok then
          match deeper c2 with
          | none => none
          | some ms =>
            match searchLoop g p deeper c depth rest with
            | none => none
            | some ms2 => some (ms ++ ms2)
        else searchLoop g p deeper c depth rest

/-- The recursive `search` of `src/iso.rs`, with fuel
`pattern.node_count() - depth` supplied by the wrapper `search` (the
recursion adds 1 to `depth` each level, so the fuel is exact and its
zero-arm is unreachable from the wrapper).  At
`depth == pattern.node_count()` the heads of the candidate sets form a
match; otherwise iterate over `candidates[depth]` with the recursion one
level deeper. -/
def searchAux (g p : Graph T) : Nat → Candidates → Nat → Option (List (List Nat))
  | 0, c, depth =>
    if depth = p.node_count then (headsOf c).map ([·]) else none
  | fuel + 1, c, depth =>
    if depth = p.node_count then (headsOf c).map ([·])
    else
      match c.get? depth with
      | none => none
      | some cd =>
        searchLoop g p (fun c2 => searchAux g p fuel c2 (depth + 1)) c depth cd

theorem searchAux_zero (g p : Graph T) (c : Candidates) (depth : Nat) :
    searchAux g p 0 c depth =
      if depth = p.node_count then (headsOf c).map ([·]) else none := rfl

theorem searchAux_succ (g p : Graph T) (fuel : Nat) (c : Candidates) (depth : Nat) :
    searchAux g p (fuel + 1) c depth =
      if depth = p.node_count then (headsOf c).map ([·])
      else
        match c.get? depth with
        | none => none
        | some cd =>
          searchLoop g p (fun c2 => searchAux g p fuel c2 (depth + 1)) c depth cd := rfl

/-- `search(graph, pattern, matches, candidates, depth)`, returning the
list of matches pushed (in discovery order). -/
def search (g p : Graph T) (c : Candidates) (depth : Nat) : Option (List (List Nat)) :=
  searchAux g p (p.node_count - depth) c depth

/-- `init_candidates` unrolled over an explicit list of pattern node ids:
`graph.nodes_by_label(pattern.node_label(i))` for each `i`, either
`unwrap` panicking on an absent label. -/
def init_candidates_from (g p : Graph T) : List Nat → Option Candidates
  | [] => some []
  | i :: rest =>
    match p.node_label i with
    | none => none
    | some l =>
      match g.nodes_by_label l with
      | none => none
      | some cs =>
        match init_candidates_from g p rest with
        | none => none
        | some restC => some (cs :: restC)

/-- `init_candidates(graph, pattern)` from `src/iso.rs`: one borrowed
label-index list per pattern node. -/
def init_candidates (g p : Graph T) : Option Candidates :=
  init_candidates_from g p (List.range p.node_count)

/-- `simple_iso(graph, pattern)` from `src/iso.rs` (the exported entry
point): build initial candidates, run `simple_simulation` — whose boolean
result is discarded, but whose mutation of the candidate state is kept —
then run `search` from depth 0. -/
def simple_iso (g p : Graph T) : Option (List (List Nat)) :=
  match init_candidates g p with
  | none => none
  | some c =>
    match simple_simulation g p c with
    | none => none
    | some (c1, _) => search g p c1 0

/-- `dual_iso(graph, pattern)` from `src/iso.rs` (the exported entry
point, re-exported by `lib.rs`): like `simple_iso` but refining with
`dual_simulation` (whose boolean result is likewise discarded).  The
extra `fuel` argument bounds the number of `dual_simulation` passes,
because that loop can diverge. -/
def dual_iso (fuel : Nat) (g p : Graph T) : Option (List (List Nat)) :=
  match init_candidates g p with
  | none => none
  | some c =>
    match dual_simulation_fuel g p fuel c with
    | none => none
    | some (c1, _) => search g p c1 0

/-! ## Basic list helpers -/

theorem mem_exists_get? {α : Type} {l : List α} {a : α} (h : a ∈ l) :
    ∃ n, l.get? n = some a := by
  induction l with
  | nil => cases h
  | cons x xs ih =>
    rcases List.mem_cons.mp h with h | h
    · exact ⟨0, by simp [h]⟩
    · obtain ⟨n, hn⟩ := ih h
      exact ⟨n + 1, by simpa using hn⟩

theorem get?_set_self {α : Type} {l : List α} {i : Nat} {x : α} (h : i < l.length) :
    (l.set i x).get? i = some x :=
  List.get?_set_eq_of_lt x h

theorem set_get?_id {α : Type} : ∀ {l : List α} {i : Nat} {x : α},
    l.get? i = some x → l.set i x = l
  | [], i, x, h => by simp [List.get?] at h
  | a :: as, 0, x, h => by
    simp only [List.get?] at h
    simp [List.set, Option.some_inj.mp h]
  | a :: as, i + 1, x, h => by
    simp only [List.get?] at h
    simp [List.set, set_get?_id h]

theorem pairwise_ne_of_get? {M : List Nat}
    (h : ∀ i j a b, i < j → M.get? i = some a → M.get? j = some b → a ≠ b) :
    M.Pairwise (· ≠ ·) := by
  rw [List.pairwise_iff_getElem]
  intro i j hi hj hij
  exact h i j _ _ hij (by rw [List.get?_eq_getElem?, List.getElem?_eq_getElem hi])
    (by rw [List.get?_eq_getElem?, List.getElem?_eq_getElem hj])

/-! ## Lemmas on the sorted-set primitives -/

/-- The fuel of `do_intersect_fuel` does not matter once it dominates
`left.length + right.length`: the fuelled definition is the semantics of
the Rust loop. -/
theorem do_intersect_fuel_stable : ∀ (f1 : Nat) {f2 : Nat} {l r : List Nat},
    l.length + r.length ≤ f1 → l.length + r.length ≤ f2 →
    do_intersect_fuel f1 l r = do_intersect_fuel f2 l r := by
  intro f1
  induction f1 with
  | zero =>
    intro f2 l r h1 h2
    cases l with
    | nil => rw [do_intersect_fuel, do_intersect_fuel]
    | cons a as_ =>
      cases r with
      | nil => rw [do_intersect_fuel, do_intersect_fuel]
      | cons b bs => simp only [List.length_cons] at h1; omega
  | succ f1 ih =>
    intro f2 l r h1 h2
    cases l with
    | nil => rw [do_intersect_fuel, do_intersect_fuel]
    | cons a as_ =>
      cases r with
      | nil => rw [do_intersect_fuel, do_intersect_fuel]
      | cons b bs =>
        obtain ⟨f2p, rfl⟩ : ∃ k, f2 = k + 1 := by
          refine ⟨f2 - 1, ?_⟩
          simp only [List.length_cons] at h2
          omega
        rw [do_intersect_fuel, do_intersect_fuel]
        simp only [List.length_cons] at h1 h2
        by_cases hab : a < b
        · rw [if_pos hab, if_pos hab]
          exact ih (by simp only [List.length_cons]; omega)
            (by simp only [List.length_cons]; omega)
        · rw [if_neg hab, if_neg hab]
          by_cases hba : b < a
          · rw [if_pos hba, if_pos hba]
            exact ih (by simp only [List.length_cons]; omega)
              (by simp only [List.length_cons]; omega)
          · rw [if_neg hba, if_neg hba]

/-- Soundness of the two-pointer intersection test: a `true` answer
exhibits a common element (no sortedness assumption is needed for this
direction). -/
theorem do_intersect_fuel_sound : ∀ {fuel : Nat} {l r : List Nat},
    do_intersect_fuel fuel l r = true → ∃ x, x ∈ l ∧ x ∈ r
  | _, [], r, h => by rw [do_intersect_fuel] at h; cases h
  | _, _ :: _, [], h => by rw [do_intersect_fuel] at h; cases h
  | 0, _ :: _, _ :: _, h => by rw [do_intersect_fuel] at h; cases h
  | fuel + 1, a :: as_, b :: bs, h => by
    rw [do_intersect_fuel] at h
    by_cases hab : a < b
    · rw [if_pos hab] at h
      obtain ⟨x, hx1, hx2⟩ := do_intersect_fuel_sound h
      exact ⟨x, List.mem_cons_of_mem _ hx1, hx2⟩
    · rw [if_neg hab] at h
      by_cases hba : b < a
      · rw [if_pos hba] at h
        obtain ⟨x, hx1, hx2⟩ := do_intersect_fuel_sound h
        exact ⟨x, hx1, List.mem_cons_of_mem _ hx2⟩
      · have : a = b := Nat.le_antisymm (Nat.not_lt.mp hba) (Nat.not_lt.mp hab)
        exact ⟨a, List.mem_cons_self _ _, by simp [this]⟩

theorem do_intersect_sorted_sound {l r : List Nat}
    (h : do_intersect_sorted l r = true) : ∃ x, x ∈ l ∧ x ∈ r :=
  do_intersect_fuel_sound h

/-- The fuel of `intersect_fuel` does not matter once it dominates
`left.length + right.length`. -/
theorem intersect_fuel_stable : ∀ (f1 : Nat) {f2 : Nat} {l r : List Nat} {prev : Nat},
    l.length + r.length ≤ f1 → l.length + r.length ≤ f2 →
    intersect_fuel f1 l r prev = intersect_fuel f2 l r prev := by
  intro f1
  induction f1 with
  | zero =>
    intro f2 l r prev h1 h2
    cases l with
    | nil => rw [intersect_fuel, intersect_fuel]
    | cons a as_ =>
      cases r with
      | nil => rw [intersect_fuel, intersect_fuel]
      | cons b bs => simp only [List.length_cons] at h1; omega
  | succ f1 ih =>
    intro f2 l r prev h1 h2
    cases l with
    | nil => rw [intersect_fuel, intersect_fuel]
    | cons a as_ =>
      cases r with
      | nil => rw [intersect_fuel, intersect_fuel]
      | cons b bs =>
        obtain ⟨f2p, rfl⟩ : ∃ k, f2 = k + 1 := by
          refine ⟨f2 - 1, ?_⟩
          simp only [List.length_cons] at h2
          omega
        rw [intersect_fuel, intersect_fuel]
        simp only [List.length_cons] at h1 h2
        by_cases hab : a < b
        · rw [if_pos hab, if_pos hab]
          exact ih (by simp only [List.length_cons]; omega)
            (by simp only [List.length_cons]; omega)
        · rw [if_neg hab, if_neg hab]
          by_cases hba : b < a
          · rw [if_pos hba, if_pos hba]
            exact ih (by simp only [List.length_cons]; omega)
              (by simp only [List.length_cons]; omega)
          · rw [if_neg hba, if_neg hba]
            by_cases hp : a ≠ prev
            · rw [if_pos hp, if_pos hp]
              exact congrArg (List.cons a) (ih (by omega) (by omega))
            · rw [if_neg hp, if_neg hp]
              exact ih (by omega) (by omega)

/-- Every element of the computed intersection is an element of `l`
(holds whatever the inputs look like, because accepted values are always
copied from the left sequence). -/
theorem intersect_fuel_subset_left : ∀ {fuel : Nat} {l r : List Nat} {prev : Nat},
    ∀ x ∈ intersect_fuel fuel l r prev, x ∈ l
  | _, [], r, prev => by intro x hx; rw [intersect_fuel] at hx; cases hx
  | _, _ :: _, [], prev => by intro x hx; rw [intersect_fuel] at hx; cases hx
  | 0, _ :: _, _ :: _, prev => by intro x hx; rw [intersect_fuel] at hx; cases hx
  | fuel + 1, a :: as_, b :: bs, prev => by
    intro x hx
    rw [intersect_fuel] at hx
    by_cases hab : a < b
    · rw [if_pos hab] at hx
      exact List.mem_cons_of_mem _ (intersect_fuel_subset_left x hx)
    · rw [if_neg hab] at hx
      by_cases hba : b < a
      · rw [if_pos hba] at hx
        exact intersect_fuel_subset_left x hx
      · rw [if_neg hba] at hx
        by_cases hp : a ≠ prev
        · rw [if_pos hp] at hx
          rcases List.mem_cons.mp hx with h | h
          · simp [h]
          · exact List.mem_cons_of_mem _ (intersect_fuel_subset_left x h)
        · rw [if_neg hp] at hx
          exact List.mem_cons_of_mem _ (intersect_fuel_subset_left x hx)

theorem intersect_sorted_subset_left {l r : List Nat} :
    ∀ x ∈ intersect_sorted l r, x ∈ l :=
  intersect_fuel_subset_left

/-- The length of the computed intersection is at most the length of
either input (each accepted element consumes one element of both). -/
theorem intersect_fuel_length : ∀ {fuel : Nat} {l r : List Nat} {prev : Nat},
    (intersect_fuel fuel l r prev).length ≤ l.length ∧
    (intersect_fuel fuel l r prev).length ≤ r.length
  | _, [], r, prev => by rw [intersect_fuel]; simp
  | _, _ :: _, [], prev => by rw [intersect_fuel]; simp
  | 0, _ :: _, _ :: _, prev => by rw [intersect_fuel]; simp
  | fuel + 1, a :: as_, b :: bs, prev => by
    rw [intersect_fuel]
    by_cases hab : a < b
    · rw [if_pos hab]
      have := @intersect_fuel_length fuel as_ (b :: bs) prev
      exact ⟨Nat.le_succ_of_le this.1, this.2⟩
    · rw [if_neg hab]
      by_cases hba : b < a
      · rw [if_pos hba]
        have := @intersect_fuel_length fuel (a :: as_) bs prev
        exact ⟨this.1, Nat.le_succ_of_le this.2⟩
      · rw [if_neg hba]
        by_cases hp : a ≠ prev
        · rw [if_pos hp]
          have := @intersect_fuel_length fuel as_ bs 0
          exact ⟨by simpa using Nat.succ_le_succ this.1,
                 by simpa using Nat.succ_le_succ this.2⟩
        · rw [if_neg hp]
          have := @intersect_fuel_length fuel as_ bs prev
          exact ⟨Nat.le_succ_of_le this.1, Nat.le_succ_of_le this.2⟩

theorem intersect_sorted_length_le_right {l r : List Nat} :
    (intersect_sorted l r).length ≤ r.length :=
  intersect_fuel_length.2

/-- The fuel of `union_into_loop` does not matter once it dominates the
loop measure `(m - i) + (n - j)`: the fuelled definition is the
semantics of the Rust loop. -/
theorem union_into_loop_stable (right : List Nat) (m n : Nat) :
    ∀ (f1 : Nat) {f2 : Nat} {left : List Nat} {i j : Nat},
      (m - i) + (n - j) ≤ f1 → (m - i) + (n - j) ≤ f2 →
      union_into_loop right m n f1 left i j = union_into_loop right m n f2 left i j := by
  intro f1
  induction f1 with
  | zero =>
    intro f2 left i j h1 h2
    have hc : ¬(i < m ∧ j < n) := by omega
    cases f2 with
    | zero => rfl
    | succ f2p =>
      rw [union_into_loop, union_into_loop, if_neg hc]
  | succ f1 ih =>
    intro f2 left i j h1 h2
    by_cases hc : i < m ∧ j < n
    · obtain ⟨f2p, rfl⟩ : ∃ k, f2 = k + 1 := ⟨f2 - 1, by omega⟩
      rw [union_into_loop, union_into_loop, if_pos hc, if_pos hc]
      dsimp only
      by_cases hab : left.getD i 0 < right.getD j 0
      · rw [if_pos hab, if_pos hab]
        exact ih (by omega) (by omega)
      · rw [if_neg hab, if_neg hab]
        by_cases hba : left.getD i 0 > right.getD j 0
        · rw [if_pos hba, if_pos hba]
          exact ih (by omega) (by omega)
        · rw [if_neg hba, if_neg hba]
          exact ih (by omega) (by omega)
    · cases f2 with
      | zero => rw [union_into_loop, union_into_loop, if_neg hc]
      | succ f2p => rw [union_into_loop, union_into_loop, if_neg hc, if_neg hc]

/-! ## Refinement relations on candidate states -/

/-- Strong refinement: each candidate set is untouched or replaced by a
non-empty sublist of itself.  This is what every simple-simulation write
guarantees (a write is guarded by the emptiness check). -/
def SRef (c c' : Candidates) : Prop :=
  c'.length = c.length ∧
  ∀ i, c'.get? i = c.get? i ∨
    ∃ l l', c.get? i = some l ∧ c'.get? i = some l' ∧ l'.Sublist l ∧ l' ≠ []

/-- Weak refinement: each candidate set only loses elements (dual
simulation also guarantees this, but its unchecked target writes may
empty a set). -/
def WRef (c c' : Candidates) : Prop :=
  c'.length = c.length ∧
  ∀ i l', c'.get? i = some l' → ∃ l, c.get? i = some l ∧ ∀ x ∈ l', x ∈ l

theorem SRef_refl (c : Candidates) : SRef c c := ⟨rfl, fun _ => Or.inl rfl⟩

theorem SRef_trans {a b c : Candidates} (h1 : SRef a b) (h2 : SRef b c) : SRef a c := by
  refine ⟨h2.1.trans h1.1, fun i => ?_⟩
  rcases h2.2 i with h | ⟨l, l', hb, hc, hsub, hne⟩
  · rcases h1.2 i with h' | ⟨l, l', ha, hb, hsub, hne⟩
    · exact Or.inl (h.trans h')
    · exact Or.inr ⟨l, l', ha, h.trans hb, hsub, hne⟩
  · rcases h1.2 i with h' | ⟨l0, l1, ha, hb', hsub', hne'⟩
    · rw [h'] at hb
      exact Or.inr ⟨l, l', hb, hc, hsub, hne⟩
    · rw [hb'] at hb
      obtain rfl : l1 = l := Option.some_inj.mp hb
      exact Or.inr ⟨l0, l', ha, hc, hsub.trans hsub', hne⟩

theorem SRef_WRef {a b : Candidates} (h : SRef a b) : WRef a b := by
  refine ⟨h.1, fun i l' hl' => ?_⟩
  rcases h.2 i with heq | ⟨l, l'', ha, hb, hsub, _⟩
  · rw [heq] at hl'
    exact ⟨l', hl', fun x hx => hx⟩
  · rw [hl'] at hb
    obtain rfl : l' = l'' := Option.some_inj.mp hb
    exact ⟨l, ha, fun x hx => hsub.subset hx⟩

theorem WRef_refl (c : Candidates) : WRef c c :=
  ⟨rfl, fun _ l' h => ⟨l', h, fun _ hx => hx⟩⟩

theorem WRef_trans {a b c : Candidates} (h1 : WRef a b) (h2 : WRef b c) : WRef a c := by
  refine ⟨h2.1.trans h1.1, fun i l' hl' => ?_⟩
  obtain ⟨lb, hb, hmem⟩ := h2.2 i l' hl'
  obtain ⟨la, ha, hmem'⟩ := h1.2 i lb hb
  exact ⟨la, ha, fun x hx => hmem' x (hmem x hx)⟩

theorem get?_some_lt {α : Type} {l : List α} {i : Nat} {a : α} (h : l.get? i = some a) :
    i < l.length := by
  obtain ⟨h', _⟩ := List.get?_eq_some.mp h
  exact h'

/-- Replacing the set at `i` by a non-empty sublist is a strong
refinement. -/
theorem SRef_set {c : Candidates} {i : Nat} {l x : List Nat}
    (hget : c.get? i = some l) (hsub : x.Sublist l) (hne : x ≠ []) :
    SRef c (c.set i x) := by
  refine ⟨List.length_set c i x, fun j => ?_⟩
  by_cases hij : i = j
  · subst hij
    exact Or.inr ⟨l, x, hget, get?_set_self (get?_some_lt hget), hsub, hne⟩
  · exact Or.inl (List.get?_set_ne x c hij)

theorem total_len_set : ∀ {c : Candidates} {i : Nat} {l x : List Nat},
    c.get? i = some l → total_len (c.set i x) + l.length = total_len c + x.length
  | [], i, l, x, h => by simp [List.get?] at h
  | a :: as_, 0, l, x, h => by
    simp only [List.get?] at h
    simp [List.set, total_len, Option.some_inj.mp h]
    omega
  | a :: as_, i + 1, l, x, h => by
    simp only [List.get?] at h
    have := total_len_set (c := as_) (i := i) (x := x) h
    simp only [List.set, total_len, List.map_cons, List.sum_cons]
    simp only [total_len] at this
    omega

/-! ## Lemmas on the simple-simulation pass -/

/-- The tests that one `(u, v)` edge step of `simple_simulation` checks
at a state it does not change: both sets are present, the source set is
non-empty, and every source candidate's neighbor list intersects the
target set. -/
def edgeTests (g : Graph T) (c : Candidates) (u v : Nat) : Prop :=
  ∃ cu cv, c.get? u = some cu ∧ c.get? v = some cv ∧ cu ≠ [] ∧
    ∀ x ∈ cu, ∃ nb, g.neighbors x = some nb ∧ do_intersect_sorted nb cv = true

/-- All pattern edges pass their tests: the fixpoint property
established by a pass that reports no change. -/
def AllEdges (g p : Graph T) (c : Candidates) : Prop :=
  ∀ u nbs v, p.neighbors u = some nbs → v ∈ nbs → edgeTests g c u v

theorem neighbors_some_lt {g : Graph T} {u : Nat} {nbs : List Nat}
    (h : g.neighbors u = some nbs) : u < g.node_count := by
  by_contra hcon
  rw [Graph.neighbors, if_neg hcon] at h
  cases h

theorem filterCands_sublist {g : Graph T} {cv : List Nat} :
    ∀ {l r : List Nat} {u : Bool}, filterCands g cv l = some (r, u) → r.Sublist l
  | [], r, u, h => by
    simp only [filterCands] at h
    obtain ⟨h1, _⟩ := Prod.mk.injEq _ _ _ _ ▸ Option.some_inj.mp h
    subst h1
    exact List.Sublist.refl _
  | x :: rest, r, u, h => by
    simp only [filterCands] at h
    cases hnb : g.neighbors x with
    | none => rw [hnb] at h; simp at h
    | some nb =>
      rw [hnb] at h
      cases hfc : filterCands g cv rest with
      | none => rw [hfc] at h; simp at h
      | some pr =>
        obtain ⟨tail, upd⟩ := pr
        rw [hfc] at h
        dsimp only at h
        by_cases hdo : do_intersect_sorted nb cv
        · rw [if_pos hdo] at h
          obtain ⟨h1, _⟩ := Prod.mk.injEq _ _ _ _ ▸ Option.some_inj.mp h
          subst h1
          exact List.Sublist.cons₂ x (filterCands_sublist hfc)
        · rw [if_neg hdo] at h
          obtain ⟨h1, _⟩ := Prod.mk.injEq _ _ _ _ ▸ Option.some_inj.mp h
          subst h1
          exact List.Sublist.cons x (filterCands_sublist hfc)

theorem filterCands_false_eq {g : Graph T} {cv : List Nat} :
    ∀ {l r : List Nat}, filterCands g cv l = some (r, false) → r = l
  | [], r, h => by
    simp only [filterCands] at h
    obtain ⟨h1, _⟩ := Prod.mk.injEq _ _ _ _ ▸ Option.some_inj.mp h
    exact h1.symm
  | x :: rest, r, h => by
    simp only [filterCands] at h
    cases hnb : g.neighbors x with
    | none => rw [hnb] at h; simp at h
    | some nb =>
      rw [hnb] at h
      cases hfc : filterCands g cv rest with
      | none => rw [hfc] at h; simp at h
      | some pr =>
        obtain ⟨tail, upd⟩ := pr
        rw [hfc] at h
        dsimp only at h
        by_cases hdo : do_intersect_sorted nb cv
        · rw [if_pos hdo] at h
          obtain ⟨h1, h2⟩ := Prod.mk.injEq _ _ _ _ ▸ Option.some_inj.mp h
          subst h2
          rw [← h1, filterCands_false_eq hfc]
        · rw [if_neg hdo] at h
          obtain ⟨_, h2⟩ := Prod.mk.injEq _ _ _ _ ▸ Option.some_inj.mp h
          cases h2

theorem filterCands_true_lt {g : Graph T} {cv : List Nat} :
    ∀ {l r : List Nat}, filterCands g cv l = some (r, true) → r.length < l.length
  | [], r, h => by
    simp only [filterCands] at h
    obtain ⟨_, h2⟩ := Prod.mk.injEq _ _ _ _ ▸ Option.some_inj.mp h
    cases h2
  | x :: rest, r, h => by
    simp only [filterCands] at h
    cases hnb : g.neighbors x with
    | none => rw [hnb] at h; simp at h
    | some nb =>
      rw [hnb] at h
      cases hfc : filterCands g cv rest with
      | none => rw [hfc] at h; simp at h
      | some pr =>
        obtain ⟨tail, upd⟩ := pr
        rw [hfc] at h
        dsimp only at h
        by_cases hdo : do_intersect_sorted nb cv
        · rw [if_pos hdo] at h
          obtain ⟨h1, h2⟩ := Prod.mk.injEq _ _ _ _ ▸ Option.some_inj.mp h
          subst h1; subst h2
          exact Nat.succ_lt_succ (filterCands_true_lt hfc)
        · rw [if_neg hdo] at h
          obtain ⟨h1, _⟩ := Prod.mk.injEq _ _ _ _ ▸ Option.some_inj.mp h
          subst h1
          exact Nat.lt_succ_of_le (filterCands_sublist hfc).length_le

theorem filterCands_false_tests {g : Graph T} {cv : List Nat} :
    ∀ {l r : List Nat}, filterCands g cv l = some (r, false) →
      ∀ x ∈ l, ∃ nb, g.neighbors x = some nb ∧ do_intersect_sorted nb cv = true
  | [], r, h => by intro x hx; cases hx
  | x :: rest, r, h => by
    intro y hy
    simp only [filterCands] at h
    cases hnb : g.neighbors x with
    | none => rw [hnb] at h; simp at h
    | some nb =>
      rw [hnb] at h
      cases hfc : filterCands g cv rest with
      | none => rw [hfc] at h; simp at h
      | some pr =>
        obtain ⟨tail, upd⟩ := pr
        rw [hfc] at h
        dsimp only at h
        by_cases hdo : do_intersect_sorted nb cv
        · rw [if_pos hdo] at h
          obtain ⟨_, h2⟩ := Prod.mk.injEq _ _ _ _ ▸ Option.some_inj.mp h
          subst h2
          rcases List.mem_cons.mp hy with hy | hy
          · subst hy
            exact ⟨nb, hnb, hdo⟩
          · exact filterCands_false_tests hfc y hy
        · rw [if_neg hdo] at h
          obtain ⟨_, h2⟩ := Prod.mk.injEq _ _ _ _ ▸ Option.some_inj.mp h
          cases h2

/-! ## Lemmas on simple-simulation steps and passes -/

theorem simpleStep_ok {g : Graph T} {c c' : Candidates} {u v : Nat} {b : Bool}
    (h : simpleStep g c u v = .ok c' b) :
    SRef c c' ∧ total_len c' ≤ total_len c ∧ (b = true → total_len c' < total_len c) := by
  rw [simpleStep] at h
  cases hcu : c.get? u with
  | none => rw [hcu] at h; cases h
  | some cu =>
    rw [hcu] at h
    cases hcv : c.get? v with
    | none => rw [hcv] at h; cases h
    | some cv =>
      rw [hcv] at h
      dsimp only at h
      cases hfc : filterCands g cv cu with
      | none => rw [hfc] at h; cases h
      | some pr =>
        obtain ⟨ug, upd⟩ := pr
        rw [hfc] at h
        dsimp only at h
        by_cases hem : ug.isEmpty
        · rw [if_pos hem] at h; cases h
        · rw [if_neg hem] at h
          cases h
          have hne : ug ≠ [] := fun hh => hem (by simp [hh])
          have hsub : ug.Sublist cu := filterCands_sublist hfc
          have hlen := total_len_set (x := ug) hcu
          refine ⟨SRef_set hcu hsub hne, by have := hsub.length_le; omega, fun hb => ?_⟩
          subst hb
          have := filterCands_true_lt hfc
          omega

theorem simpleStep_failed {g : Graph T} {c c' : Candidates} {u v : Nat}
    (h : simpleStep g c u v = .failed c') : c' = c := by
  rw [simpleStep] at h
  cases hcu : c.get? u with
  | none => rw [hcu] at h; cases h
  | some cu =>
    rw [hcu] at h
    cases hcv : c.get? v with
    | none => rw [hcv] at h; cases h
    | some cv =>
      rw [hcv] at h
      dsimp only at h
      cases hfc : filterCands g cv cu with
      | none => rw [hfc] at h; cases h
      | some pr =>
        obtain ⟨ug, upd⟩ := pr
        rw [hfc] at h
        dsimp only at h
        by_cases hem : ug.isEmpty
        · rw [if_pos hem] at h; cases h; rfl
        · rw [if_neg hem] at h; cases h

theorem simpleStep_ok_false {g : Graph T} {c c' : Candidates} {u v : Nat}
    (h : simpleStep g c u v = .ok c' false) : c' = c ∧ edgeTests g c u v := by
  rw [simpleStep] at h
  cases hcu : c.get? u with
  | none => rw [hcu] at h; cases h
  | some cu =>
    rw [hcu] at h
    cases hcv : c.get? v with
    | none => rw [hcv] at h; cases h
    | some cv =>
      rw [hcv] at h
      dsimp only at h
      cases hfc : filterCands g cv cu with
      | none => rw [hfc] at h; cases h
      | some pr =>
        obtain ⟨ug, upd⟩ := pr
        rw [hfc] at h
        dsimp only at h
        by_cases hem : ug.isEmpty
        · rw [if_pos hem] at h; cases h
        · rw [if_neg hem] at h
          cases h
          have heq : ug = cu := filterCands_false_eq hfc
          subst heq
          have hne : ug ≠ [] := fun hh => hem (by simp [hh])
          exact ⟨set_get?_id hcu, ug, cv, hcu, hcv, hne, filterCands_false_tests hfc⟩

theorem simpleInner_ok {g : Graph T} {u : Nat} :
    ∀ {c : Candidates} {upd : Bool} {l : List Nat} {c' : Candidates} {upd' : Bool},
      simpleInner g u c upd l = .ok c' upd' →
      SRef c c' ∧ total_len c' ≤ total_len c ∧
        (upd = false → upd' = true → total_len c' < total_len c)
  | c, upd, [], c', upd', h => by
    rw [simpleInner] at h
    cases h
    exact ⟨SRef_refl c, Nat.le_refl _, fun h1 h2 => by rw [h1] at h2; cases h2⟩
  | c, upd, v :: rest, c', upd', h => by
    rw [simpleInner] at h
    cases hst : simpleStep g c u v with
    | panicked => rw [hst] at h; cases h
    | failed c1 => rw [hst] at h; cases h
    | ok c1 u1 =>
      rw [hst] at h
      dsimp only at h
      obtain ⟨hs1, hs2, hs3⟩ := simpleStep_ok hst
      obtain ⟨hi1, hi2, hi3⟩ := simpleInner_ok h
      refine ⟨SRef_trans hs1 hi1, Nat.le_trans hi2 hs2, fun hu hu' => ?_⟩
      subst hu
      cases u1 with
      | true => exact Nat.lt_of_le_of_lt hi2 (hs3 rfl)
      | false => exact Nat.lt_of_lt_of_le (hi3 rfl hu') hs2

theorem simpleInner_failed {g : Graph T} {u : Nat} :
    ∀ {c : Candidates} {upd : Bool} {l : List Nat} {c' : Candidates},
      simpleInner g u c upd l = .failed c' → SRef c c'
  | c, upd, [], c', h => by rw [simpleInner] at h; cases h
  | c, upd, v :: rest, c', h => by
    rw [simpleInner] at h
    cases hst : simpleStep g c u v with
    | panicked => rw [hst] at h; cases h
    | failed c1 =>
      rw [hst] at h
      cases h
      rw [simpleStep_failed hst]
      exact SRef_refl c
    | ok c1 u1 =>
      rw [hst] at h
      dsimp only at h
      exact SRef_trans (simpleStep_ok hst).1 (simpleInner_failed h)

theorem simpleInner_ok_false {g : Graph T} {u : Nat} :
    ∀ {c : Candidates} {upd : Bool} {l : List Nat} {c' : Candidates},
      simpleInner g u c upd l = .ok c' false →
      upd = false ∧ c' = c ∧ ∀ v ∈ l, edgeTests g c u v
  | c, upd, [], c', h => by
    rw [simpleInner] at h
    cases h
    exact ⟨rfl, rfl, fun v hv => absurd hv (List.not_mem_nil v)⟩
  | c, upd, v :: rest, c', h => by
    rw [simpleInner] at h
    cases hst : simpleStep g c u v with
    | panicked => rw [hst] at h; cases h
    | failed c1 => rw [hst] at h; cases h
    | ok c1 u1 =>
      rw [hst] at h
      dsimp only at h
      obtain ⟨hor, hc, htests⟩ := simpleInner_ok_false h
      have hu : upd = false ∧ u1 = false := by
        cases upd <;> cases u1 <;> simp_all
      obtain ⟨hupd, hu1⟩ := hu
      subst hu1
      obtain ⟨hc1, hedge⟩ := simpleStep_ok_false hst
      subst hc1
      subst hc
      exact ⟨hupd, rfl, fun w hw => by
        rcases List.mem_cons.mp hw with hw | hw
        · subst hw; exact hedge
        · exact htests w hw⟩

theorem simpleOuter_ok {g p : Graph T} :
    ∀ {c : Candidates} {upd : Bool} {l : List Nat} {c' : Candidates} {upd' : Bool},
      simpleOuter g p c upd l = .ok c' upd' →
      SRef c c' ∧ total_len c' ≤ total_len c ∧
        (upd = false → upd' = true → total_len c' < total_len c)
  | c, upd, [], c', upd', h => by
    rw [simpleOuter] at h
    cases h
    exact ⟨SRef_refl c, Nat.le_refl _, fun h1 h2 => by rw [h1] at h2; cases h2⟩
  | c, upd, u :: rest, c', upd', h => by
    rw [simpleOuter] at h
    cases hnb : p.neighbors u with
    | none => rw [hnb] at h; cases h
    | some nbs =>
      rw [hnb] at h
      dsimp only at h
      cases hin : simpleInner g u c upd nbs with
      | panicked => rw [hin] at h; cases h
      | failed c1 => rw [hin] at h; cases h
      | ok c1 upd1 =>
        rw [hin] at h
        dsimp only at h
        obtain ⟨hs1, hs2, hs3⟩ := simpleInner_ok hin
        obtain ⟨ho1, ho2, ho3⟩ := simpleOuter_ok h
        refine ⟨SRef_trans hs1 ho1, Nat.le_trans ho2 hs2, fun hu hu' => ?_⟩
        subst hu
        cases upd1 with
        | true => exact Nat.lt_of_le_of_lt ho2 (hs3 rfl rfl)
        | false => exact Nat.lt_of_lt_of_le (ho3 rfl hu') hs2

theorem simpleOuter_failed {g p : Graph T} :
    ∀ {c : Candidates} {upd : Bool} {l : List Nat} {c' : Candidates},
      simpleOuter g p c upd l = .failed c' → SRef c c'
  | c, upd, [], c', h => by rw [simpleOuter] at h; cases h
  | c, upd, u :: rest, c', h => by
    rw [simpleOuter] at h
    cases hnb : p.neighbors u with
    | none => rw [hnb] at h; cases h
    | some nbs =>
      rw [hnb] at h
      dsimp only at h
      cases hin : simpleInner g u c upd nbs with
      | panicked => rw [hin] at h; cases h
      | failed c1 =>
        rw [hin] at h
        cases h
        exact simpleInner_failed hin
      | ok c1 upd1 =>
        rw [hin] at h
        dsimp only at h
        exact SRef_trans (simpleInner_ok hin).1 (simpleOuter_failed h)

theorem simpleOuter_ok_false {g p : Graph T} :
    ∀ {c : Candidates} {upd : Bool} {l : List Nat} {c' : Candidates},
      simpleOuter g p c upd l = .ok c' false →
      upd = false ∧ c' = c ∧
        ∀ u ∈ l, ∀ nbs, p.neighbors u = some nbs → ∀ v ∈ nbs, edgeTests g c u v
  | c, upd, [], c', h => by
    rw [simpleOuter] at h
    cases h
    exact ⟨rfl, rfl, fun u hu => absurd hu (List.not_mem_nil u)⟩
  | c, upd, u :: rest, c', h => by
    rw [simpleOuter] at h
    cases hnb : p.neighbors u with
    | none => rw [hnb] at h; cases h
    | some nbs =>
      rw [hnb] at h
      dsimp only at h
      cases hin : simpleInner g u c upd nbs with
      | panicked => rw [hin] at h; cases h
      | failed c1 => rw [hin] at h; cases h
      | ok c1 upd1 =>
        rw [hin] at h
        dsimp only at h
        obtain ⟨hupd1, hc, htests⟩ := simpleOuter_ok_false h
        subst hupd1
        obtain ⟨hupd, hc1, hinner⟩ := simpleInner_ok_false hin
        subst hc1
        subst hc
        refine ⟨hupd, rfl, fun w hw nbs2 hnb2 v hv => ?_⟩
        rcases List.mem_cons.mp hw with hw | hw
        · subst hw
          rw [hnb] at hnb2
          obtain rfl : nbs = nbs2 := Option.some_inj.mp hnb2
          exact hinner v hv
        · exact htests w hw nbs2 hnb2 v hv

/-- A pass that sets the change flag strictly decreases the total number
of candidate entries: the termination potential of the simple loop. -/
theorem simplePass_ok_true_lt {g p : Graph T} {c c' : Candidates}
    (h : simplePass g p c = .ok c' true) : total_len c' < total_len c :=
  (simpleOuter_ok h).2.2 rfl rfl

/-- A pass that reports no change leaves the state untouched and
certifies that every pattern edge passes its intersection tests. -/
theorem simplePass_ok_false {g p : Graph T} {c c' : Candidates}
    (h : simplePass g p c = .ok c' false) : c' = c ∧ AllEdges g p c := by
  obtain ⟨_, hc, htests⟩ := simpleOuter_ok_false h
  subst hc
  refine ⟨rfl, fun u nbs v hnb hv => ?_⟩
  exact htests u (List.mem_range.mpr (neighbors_some_lt hnb)) nbs hnb v hv

theorem simplePass_SRef {g p : Graph T} {c c' : Candidates} :
    (∀ b, simplePass g p c = .ok c' b → SRef c c') ∧
    (simplePass g p c = .failed c' → SRef c c') :=
  ⟨fun _ h => (simpleOuter_ok h).1, fun h => simpleOuter_failed h⟩

/-! ## Lemmas on the simple-simulation loop -/

theorem simpleStep_failed_reason {g : Graph T} {c c' : Candidates} {u v : Nat}
    (h : simpleStep g c u v = .failed c') :
    c' = c ∧ ∃ cu cv b, c.get? u = some cu ∧ c.get? v = some cv ∧
      filterCands g cv cu = some ([], b) := by
  rw [simpleStep] at h
  cases hcu : c.get? u with
  | none => rw [hcu] at h; cases h
  | some cu =>
    rw [hcu] at h
    cases hcv : c.get? v with
    | none => rw [hcv] at h; cases h
    | some cv =>
      rw [hcv] at h
      dsimp only at h
      cases hfc : filterCands g cv cu with
      | none => rw [hfc] at h; cases h
      | some pr =>
        obtain ⟨ug, upd⟩ := pr
        rw [hfc] at h
        dsimp only at h
        by_cases hem : ug.isEmpty
        · rw [if_pos hem] at h
          cases h
          have : ug = [] := by
            cases ug with
            | nil => rfl
            | cons a as_ => simp [List.isEmpty] at hem
          subst this
          exact ⟨rfl, cu, cv, upd, rfl, rfl, hfc⟩
        · rw [if_neg hem] at h; cases h

theorem simpleInner_failed_reason {g : Graph T} {u : Nat} :
    ∀ {c : Candidates} {upd : Bool} {l : List Nat} {c' : Candidates},
      simpleInner g u c upd l = .failed c' →
      ∃ v ∈ l, ∃ cu cv b, c'.get? u = some cu ∧ c'.get? v = some cv ∧
        filterCands g cv cu = some ([], b)
  | c, upd, [], c', h => by rw [simpleInner] at h; cases h
  | c, upd, v :: rest, c', h => by
    rw [simpleInner] at h
    cases hst : simpleStep g c u v with
    | panicked => rw [hst] at h; cases h
    | failed c1 =>
      rw [hst] at h
      cases h
      obtain ⟨hc, cu, cv, b, hcu, hcv, hfc⟩ := simpleStep_failed_reason hst
      subst hc
      exact ⟨v, List.mem_cons_self _ _, cu, cv, b, hcu, hcv, hfc⟩
    | ok c1 u1 =>
      rw [hst] at h
      dsimp only at h
      obtain ⟨w, hw, rest'⟩ := simpleInner_failed_reason h
      exact ⟨w, List.mem_cons_of_mem _ hw, rest'⟩

theorem simpleOuter_failed_reason {g p : Graph T} :
    ∀ {c : Candidates} {upd : Bool} {l : List Nat} {c' : Candidates},
      simpleOuter g p c upd l = .failed c' →
      ∃ u ∈ l, ∃ nbs, p.neighbors u = some nbs ∧
        ∃ v ∈ nbs, ∃ cu cv b, c'.get? u = some cu ∧ c'.get? v = some cv ∧
          filterCands g cv cu = some ([], b)
  | c, upd, [], c', h => by rw [simpleOuter] at h; cases h
  | c, upd, u :: rest, c', h => by
    rw [simpleOuter] at h
    cases hnb : p.neighbors u with
    | none => rw [hnb] at h; cases h
    | some nbs =>
      rw [hnb] at h
      dsimp only at h
      cases hin : simpleInner g u c upd nbs with
      | panicked => rw [hin] at h; cases h
      | failed c1 =>
        rw [hin] at h
        cases h
        obtain ⟨v, hv, rest'⟩ := simpleInner_failed_reason hin
        exact ⟨u, List.mem_cons_self _ _, nbs, hnb, v, hv, rest'⟩
      | ok c1 upd1 =>
        rw [hin] at h
        dsimp only at h
        obtain ⟨w, hw, rest'⟩ := simpleOuter_failed_reason h
        exact ⟨w, List.mem_cons_of_mem _ hw, rest'⟩

theorem ssf_some {g p : Graph T} :
    ∀ {f : Nat} {c c' : Candidates} {b : Bool},
      simple_simulation_fuel g p f c = some (c', b) →
      SRef c c' ∧ (b = true → simplePass g p c' = .ok c' false ∧ AllEdges g p c')
  | 0, c, c', b, h => by rw [simple_simulation_fuel] at h; cases h
  | f + 1, c, c', b, h => by
    rw [simple_simulation_fuel] at h
    cases hsp : simplePass g p c with
    | panicked => rw [hsp] at h; cases h
    | failed c1 =>
      rw [hsp] at h
      dsimp only at h
      cases h
      exact ⟨simpleOuter_failed hsp, fun hb => by cases hb⟩
    | ok c1 b1 =>
      rw [hsp] at h
      cases b1 with
      | false =>
        dsimp only at h
        cases h
        obtain ⟨hc, hAll⟩ := simplePass_ok_false hsp
        subst hc
        exact ⟨SRef_refl _, fun _ => ⟨hsp, hAll⟩⟩
      | true =>
        dsimp only at h
        obtain ⟨h1, h2⟩ := ssf_some h
        exact ⟨SRef_trans (simpleOuter_ok hsp).1 h1, h2⟩

theorem ssf_false_reason {g p : Graph T} :
    ∀ {f : Nat} {c c' : Candidates},
      simple_simulation_fuel g p f c = some (c', false) →
      ∃ u nbs v cu cv b, p.neighbors u = some nbs ∧ v ∈ nbs ∧
        c'.get? u = some cu ∧ c'.get? v = some cv ∧
        filterCands g cv cu = some ([], b)
  | 0, c, c', h => by rw [simple_simulation_fuel] at h; cases h
  | f + 1, c, c', h => by
    rw [simple_simulation_fuel] at h
    cases hsp : simplePass g p c with
    | panicked => rw [hsp] at h; cases h
    | failed c1 =>
      rw [hsp] at h
      dsimp only at h
      cases h
      obtain ⟨u, _, nbs, hnb, v, hv, cu, cv, b, hcu, hcv, hfc⟩ :=
        simpleOuter_failed_reason hsp
      exact ⟨u, nbs, v, cu, cv, b, hnb, hv, hcu, hcv, hfc⟩
    | ok c1 b1 =>
      rw [hsp] at h
      cases b1 with
      | false => dsimp only at h; cases h
      | true => dsimp only at h; exact ssf_false_reason h

/-- Fuel stability for the simple-simulation loop: any fuel of at least
`total_len c + 1` passes computes the same result as the wrapper
`simple_simulation`, i.e. the wrapper is the semantics of the unbounded
Rust loop, which terminates because each flagged pass strictly decreases
`total_len`. -/
theorem ssf_stable_aux {g p : Graph T} :
    ∀ (n : Nat) (c : Candidates), total_len c ≤ n →
      ∀ f, total_len c + 1 ≤ f →
        simple_simulation_fuel g p f c = simple_simulation g p c := by
  intro n
  induction n with
  | zero =>
    intro c hc f hf
    obtain ⟨f', rfl⟩ : ∃ f', f = f' + 1 := ⟨f - 1, by omega⟩
    rw [simple_simulation]
    have h0 : total_len c = 0 := Nat.le_zero.mp hc
    rw [h0]
    rw [simple_simulation_fuel, simple_simulation_fuel]
    cases hsp : simplePass g p c with
    | panicked => rfl
    | failed c1 => rfl
    | ok c1 b1 =>
      cases b1 with
      | false => rfl
      | true =>
        have := simplePass_ok_true_lt hsp
        omega
  | succ n ih =>
    intro c hc f hf
    obtain ⟨f', rfl⟩ : ∃ f', f = f' + 1 := ⟨f - 1, by omega⟩
    rw [simple_simulation]
    rw [simple_simulation_fuel, simple_simulation_fuel]
    cases hsp : simplePass g p c with
    | panicked => rfl
    | failed c1 => rfl
    | ok c1 b1 =>
      cases b1 with
      | false => rfl
      | true =>
        dsimp only
        have hlt := simplePass_ok_true_lt hsp
        have h1 : simple_simulation_fuel g p f' c1 = simple_simulation g p c1 :=
          ih c1 (by omega) f' (by omega)
        have h2 : simple_simulation_fuel g p (total_len c) c1 = simple_simulation g p c1 :=
          ih c1 (by omega) (total_len c) (by omega)
        rw [h1, h2]

theorem simple_simulation_fuel_stable {g p : Graph T} {c : Candidates} {f : Nat}
    (hf : total_len c + 1 ≤ f) :
    simple_simulation_fuel g p f c = simple_simulation g p c :=
  ssf_stable_aux (total_len c) c (Nat.le_refl _) f hf

theorem simple_simulation_some {g p : Graph T} {c c' : Candidates} {b : Bool}
    (h : simple_simulation g p c = some (c', b)) :
    SRef c c' ∧ (b = true → simplePass g p c' = .ok c' false ∧ AllEdges g p c') :=
  ssf_some (f := total_len c + 1) h

/-! ## Lemmas on the dual-simulation pass -/

theorem isEmpty_true_eq_nil {α : Type} : ∀ {l : List α}, l.isEmpty = true → l = []
  | [], _ => rfl
  | _ :: _, h => by simp [List.isEmpty] at h

/-- Elements of the accumulated source set of `dualCollect` come from the
accumulator or from the iterated candidate list. -/
theorem dualCollect_subset {g : Graph T} {cv : List Nat} :
    ∀ {l ugAcc vgAcc : List Nat} {upd : Bool} {ug vg : List Nat} {upd' : Bool},
      dualCollect g cv l ugAcc vgAcc upd = some (ug, vg, upd') →
      ∀ x ∈ ug, x ∈ ugAcc ∨ x ∈ l
  | [], ugAcc, vgAcc, upd, ug, vg, upd', h => by
    rw [dualCollect] at h
    cases h
    exact fun x hx => Or.inl hx
  | u :: rest, ugAcc, vgAcc, upd, ug, vg, upd', h => by
    rw [dualCollect] at h
    cases hnb : g.neighbors u with
    | none => rw [hnb] at h; cases h
    | some nb =>
      rw [hnb] at h
      dsimp only at h
      intro x hx
      by_cases hie : (intersect_sorted nb cv).isEmpty
      · rw [if_pos hie, if_pos hie] at h
        rcases dualCollect_subset h x hx with hx' | hx'
        · exact Or.inl hx'
        · exact Or.inr (List.mem_cons_of_mem _ hx')
      · rw [if_neg hie, if_neg hie] at h
        rcases dualCollect_subset h x hx with hx' | hx'
        · rcases List.mem_append.mp hx' with hx' | hx'
          · exact Or.inl hx'
          · rcases List.mem_singleton.mp hx' with rfl
            exact Or.inr (List.mem_cons_self _ _)
        · exact Or.inr (List.mem_cons_of_mem _ hx')

/-- Writing a subset into slot `v` and then a subset into slot `u` (the
order of the two writes of a dual-simulation edge step) only loses
elements. -/
theorem WRef_set2 {c : Candidates} {u v : Nat} {cu cv ug ivs : List Nat}
    (hcu : c.get? u = some cu) (hcv : c.get? v = some cv)
    (hug : ∀ x ∈ ug, x ∈ cu) (hivs : ∀ x ∈ ivs, x ∈ cv) :
    WRef c ((c.set v ivs).set u ug) := by
  have hu : u < c.length := get?_some_lt hcu
  have hv : v < c.length := get?_some_lt hcv
  refine ⟨by rw [List.length_set, List.length_set], fun i l' h' => ?_⟩
  by_cases hiu : i = u
  · subst hiu
    rw [get?_set_self (by rw [List.length_set]; exact hu)] at h'
    obtain rfl : l' = ug := (Option.some_inj.mp h').symm
    exact ⟨cu, hcu, hug⟩
  · rw [List.get?_set_ne _ _ (fun hh => hiu hh.symm)] at h'
    by_cases hiv : i = v
    · subst hiv
      rw [get?_set_self hv] at h'
      obtain rfl : l' = ivs := (Option.some_inj.mp h').symm
      exact ⟨cv, hcv, hivs⟩
    · rw [List.get?_set_ne _ _ (fun hh => hiv hh.symm)] at h'
      exact ⟨l', h', fun x hx => hx⟩

theorem dualStep_ok_WRef {g : Graph T} {c c' : Candidates} {u v : Nat} {b : Bool}
    (h : dualStep g c u v = .ok c' b) : WRef c c' := by
  rw [dualStep] at h
  cases hcu : c.get? u with
  | none => rw [hcu] at h; cases h
  | some cu =>
    rw [hcu] at h
    cases hcv : c.get? v with
    | none => rw [hcv] at h; cases h
    | some cv =>
      rw [hcv] at h
      dsimp only at h
      cases hdc : dualCollect g cv cu [] [] false with
      | none => rw [hdc] at h; cases h
      | some pr =>
        obtain ⟨ug, vg, upd⟩ := pr
        rw [hdc] at h
        dsimp only at h
        by_cases hem : ug.isEmpty || vg.isEmpty
        · rw [if_pos hem] at h; cases h
        · rw [if_neg hem] at h
          cases h
          refine WRef_set2 hcu hcv (fun x hx => ?_) intersect_sorted_subset_left
          rcases dualCollect_subset hdc x hx with hx' | hx'
          · cases hx'
          · exact hx'

theorem dualStep_failed_reason {g : Graph T} {c c' : Candidates} {u v : Nat}
    (h : dualStep g c u v = .failed c') :
    c' = c ∧ ∃ cu cv ug vg b2, c.get? u = some cu ∧ c.get? v = some cv ∧
      dualCollect g cv cu [] [] false = some (ug, vg, b2) ∧ (ug = [] ∨ vg = []) := by
  rw [dualStep] at h
  cases hcu : c.get? u with
  | none => rw [hcu] at h; cases h
  | some cu =>
    rw [hcu] at h
    cases hcv : c.get? v with
    | none => rw [hcv] at h; cases h
    | some cv =>
      rw [hcv] at h
      dsimp only at h
      cases hdc : dualCollect g cv cu [] [] false with
      | none => rw [hdc] at h; cases h
      | some pr =>
        obtain ⟨ug, vg, upd⟩ := pr
        rw [hdc] at h
        dsimp only at h
        by_cases hem : ug.isEmpty || vg.isEmpty
        · rw [if_pos hem] at h
          cases h
          refine ⟨rfl, cu, cv, ug, vg, upd, rfl, rfl, hdc, ?_⟩
          rcases Bool.or_eq_true_iff.mp hem with hh | hh
          · exact Or.inl (isEmpty_true_eq_nil hh)
          · exact Or.inr (isEmpty_true_eq_nil hh)
        · rw [if_neg hem] at h; cases h

theorem dualInner_WRef {g : Graph T} {u : Nat} :
    ∀ {c : Candidates} {upd : Bool} {l : List Nat} {res : StepRes},
      dualInner g u c upd l = res →
      (∀ c' b, res = .ok c' b → WRef c c') ∧ (∀ c', res = .failed c' → WRef c c')
  | c, upd, [], res, h => by
    rw [dualInner] at h
    subst h
    constructor
    · intro c' b hh
      cases hh
      exact WRef_refl c
    · intro c' hh; cases hh
  | c, upd, v :: rest, res, h => by
    rw [dualInner] at h
    cases hst : dualStep g c u v with
    | panicked =>
      rw [hst] at h
      subst h
      exact ⟨(fun c' b hh => by cases hh), (fun c' hh => by cases hh)⟩
    | failed c1 =>
      rw [hst] at h
      subst h
      refine ⟨(fun c' b hh => by cases hh), fun c' hh => ?_⟩
      cases hh
      obtain ⟨hc, -⟩ := dualStep_failed_reason hst
      subst hc
      exact WRef_refl _
    | ok c1 u1 =>
      rw [hst] at h
      dsimp only at h
      have hW := dualStep_ok_WRef hst
      obtain ⟨h1, h2⟩ := dualInner_WRef h
      exact ⟨fun c' b hh => WRef_trans hW (h1 c' b hh),
             fun c' hh => WRef_trans hW (h2 c' hh)⟩

theorem dualOuter_WRef {g p : Graph T} :
    ∀ {c : Candidates} {upd : Bool} {l : List Nat} {res : StepRes},
      dualOuter g p c upd l = res →
      (∀ c' b, res = .ok c' b → WRef c c') ∧ (∀ c', res = .failed c' → WRef c c')
  | c, upd, [], res, h => by
    rw [dualOuter] at h
    subst h
    constructor
    · intro c' b hh
      cases hh
      exact WRef_refl c
    · intro c' hh; cases hh
  | c, upd, u :: rest, res, h => by
    rw [dualOuter] at h
    cases hnb : p.neighbors u with
    | none =>
      rw [hnb] at h
      subst h
      exact ⟨(fun c' b hh => by cases hh), (fun c' hh => by cases hh)⟩
    | some nbs =>
      rw [hnb] at h
      dsimp only at h
      cases hin : dualInner g u c upd nbs with
      | panicked =>
        rw [hin] at h
        subst h
        exact ⟨(fun c' b hh => by cases hh), (fun c' hh => by cases hh)⟩
      | failed c1 =>
        rw [hin] at h
        subst h
        refine ⟨(fun c' b hh => by cases hh), fun c' hh => ?_⟩
        cases hh
        exact (dualInner_WRef hin).2 c1 rfl
      | ok c1 upd1 =>
        rw [hin] at h
        dsimp only at h
        have hW := (dualInner_WRef hin).1 c1 upd1 rfl
        obtain ⟨h1, h2⟩ := dualOuter_WRef h
        exact ⟨fun c' b hh => WRef_trans hW (h1 c' b hh),
               fun c' hh => WRef_trans hW (h2 c' hh)⟩

theorem dsf_WRef {g p : Graph T} :
    ∀ {f : Nat} {c c' : Candidates} {b : Bool},
      dual_simulation_fuel g p f c = some (c', b) → WRef c c'
  | 0, c, c', b, h => by rw [dual_simulation_fuel] at h; cases h
  | f + 1, c, c', b, h => by
    rw [dual_simulation_fuel] at h
    cases hdp : dualPass g p c with
    | panicked => rw [hdp] at h; cases h
    | failed c1 =>
      rw [hdp] at h
      dsimp only at h
      cases h
      exact (dualOuter_WRef hdp).2 c' rfl
    | ok c1 b1 =>
      rw [hdp] at h
      cases b1 with
      | false =>
        dsimp only at h
        cases h
        exact (dualOuter_WRef hdp).1 c' false rfl
      | true =>
        dsimp only at h
        exact WRef_trans ((dualOuter_WRef hdp).1 c1 true rfl) (dsf_WRef h)

/-- The dual loop answers `true` only off the back of a pass whose change
flag stayed `false`. -/
theorem dsf_true_pass {g p : Graph T} :
    ∀ {f : Nat} {c c' : Candidates},
      dual_simulation_fuel g p f c = some (c', true) →
      ∃ c0, dualPass g p c0 = .ok c' false
  | 0, c, c', h => by rw [dual_simulation_fuel] at h; cases h
  | f + 1, c, c', h => by
    rw [dual_simulation_fuel] at h
    cases hdp : dualPass g p c with
    | panicked => rw [hdp] at h; cases h
    | failed c1 => rw [hdp] at h; dsimp only at h; cases h
    | ok c1 b1 =>
      rw [hdp] at h
      cases b1 with
      | false =>
        dsimp only at h
        cases h
        exact ⟨c, hdp⟩
      | true =>
        dsimp only at h
        exact dsf_true_pass h

theorem dualInner_failed_reason {g : Graph T} {u : Nat} :
    ∀ {c : Candidates} {upd : Bool} {l : List Nat} {c' : Candidates},
      dualInner g u c upd l = .failed c' →
      ∃ v ∈ l, ∃ cu cv ug vg b2, c'.get? u = some cu ∧ c'.get? v = some cv ∧
        dualCollect g cv cu [] [] false = some (ug, vg, b2) ∧ (ug = [] ∨ vg = [])
  | c, upd, [], c', h => by rw [dualInner] at h; cases h
  | c, upd, v :: rest, c', h => by
    rw [dualInner] at h
    cases hst : dualStep g c u v with
    | panicked => rw [hst] at h; cases h
    | failed c1 =>
      rw [hst] at h
      cases h
      obtain ⟨hc, cu, cv, ug, vg, b2, hcu, hcv, hdc, hor⟩ := dualStep_failed_reason hst
      subst hc
      exact ⟨v, List.mem_cons_self _ _, cu, cv, ug, vg, b2, hcu, hcv, hdc, hor⟩
    | ok c1 u1 =>
      rw [hst] at h
      dsimp only at h
      obtain ⟨w, hw, rest'⟩ := dualInner_failed_reason h
      exact ⟨w, List.mem_cons_of_mem _ hw, rest'⟩

theorem dualOuter_failed_reason {g p : Graph T} :
    ∀ {c : Candidates} {upd : Bool} {l : List Nat} {c' : Candidates},
      dualOuter g p c upd l = .failed c' →
      ∃ u ∈ l, ∃ nbs, p.neighbors u = some nbs ∧
        ∃ v ∈ nbs, ∃ cu cv ug vg b2, c'.get? u = some cu ∧ c'.get? v = some cv ∧
          dualCollect g cv cu [] [] false = some (ug, vg, b2) ∧ (ug = [] ∨ vg = [])
  | c, upd, [], c', h => by rw [dualOuter] at h; cases h
  | c, upd, u :: rest, c', h => by
    rw [dualOuter] at h
    cases hnb : p.neighbors u with
    | none => rw [hnb] at h; cases h
    | some nbs =>
      rw [hnb] at h
      dsimp only at h
      cases hin : dualInner g u c upd nbs with
      | panicked => rw [hin] at h; cases h
      | failed c1 =>
        rw [hin] at h
        cases h
        obtain ⟨v, hv, rest'⟩ := dualInner_failed_reason hin
        exact ⟨u, List.mem_cons_self _ _, nbs, hnb, v, hv, rest'⟩
      | ok c1 upd1 =>
        rw [hin] at h
        dsimp only at h
        obtain ⟨w, hw, rest'⟩ := dualOuter_failed_reason h
        exact ⟨w, List.mem_cons_of_mem _ hw, rest'⟩

theorem dsf_false_reason {g p : Graph T} :
    ∀ {f : Nat} {c c' : Candidates},
      dual_simulation_fuel g p f c = some (c', false) →
      ∃ u nbs v cu cv ug vg b2, p.neighbors u = some nbs ∧ v ∈ nbs ∧
        c'.get? u = some cu ∧ c'.get? v = some cv ∧
        dualCollect g cv cu [] [] false = some (ug, vg, b2) ∧ (ug = [] ∨ vg = [])
  | 0, c, c', h => by rw [dual_simulation_fuel] at h; cases h
  | f + 1, c, c', h => by
    rw [dual_simulation_fuel] at h
    cases hdp : dualPass g p c with
    | panicked => rw [hdp] at h; cases h
    | failed c1 =>
      rw [hdp] at h
      dsimp only at h
      cases h
      obtain ⟨u, -, nbs, hnb, v, hv, cu, cv, ug, vg, b2, hcu, hcv, hdc, hor⟩ :=
        dualOuter_failed_reason hdp
      exact ⟨u, nbs, v, cu, cv, ug, vg, b2, hnb, hv, hcu, hcv, hdc, hor⟩
    | ok c1 b1 =>
      rw [hdp] at h
      cases b1 with
      | false => dsimp only at h; cases h
      | true => dsimp only at h; exact dsf_false_reason h

/-! ## Lemmas on the backtracking search -/

theorem anyHeadEq_false {v : Nat} :
    ∀ {l : List (List Nat)}, anyHeadEq v l = some false →
      ∀ i x t, l.get? i = some (x :: t) → x ≠ v
  | [], h => by intro i x t hg; simp [List.get?] at hg
  | xs :: rest, h => by
    intro i x t hg
    cases xs with
    | nil => rw [anyHeadEq] at h; cases h
    | cons y ys =>
      rw [anyHeadEq] at h
      by_cases hy : y = v
      · rw [if_pos hy] at h; cases h
      · rw [if_neg hy] at h
        cases i with
        | zero =>
          simp only [List.get?] at hg
          obtain ⟨h1, _⟩ := List.cons.injEq _ _ _ _ ▸ Option.some_inj.mp hg
          subst h1
          exact hy
        | succ i => exact anyHeadEq_false h i x t (by simpa using hg)

theorem headsOf_length : ∀ {c : List (List Nat)} {M : List Nat},
    headsOf c = some M → M.length = c.length
  | [], M, h => by rw [headsOf] at h; cases h; rfl
  | [] :: rest, M, h => by rw [headsOf] at h; cases h
  | (x :: t) :: rest, M, h => by
    rw [headsOf] at h
    cases hr : headsOf rest with
    | none => rw [hr] at h; cases h
    | some M' =>
      rw [hr] at h
      cases h
      simpa using headsOf_length hr

theorem headsOf_get? : ∀ {c : List (List Nat)} {M : List Nat},
    headsOf c = some M →
      ∀ i a, M.get? i = some a → ∃ t, c.get? i = some (a :: t)
  | [], M, h => by
    rw [headsOf] at h
    cases h
    intro i a hg
    simp [List.get?] at hg
  | [] :: rest, M, h => by rw [headsOf] at h; cases h
  | (x :: t) :: rest, M, h => by
    rw [headsOf] at h
    cases hr : headsOf rest with
    | none => rw [hr] at h; cases h
    | some M' =>
      rw [hr] at h
      cases h
      intro i a hg
      cases i with
      | zero =>
        simp only [List.get?] at hg
        obtain rfl : x = a := Option.some_inj.mp hg
        exact ⟨t, rfl⟩
      | succ i => exact headsOf_get? hr i a (by simpa using hg)

theorem headsOf_of_singleton : ∀ {c : List (List Nat)} {M : List Nat},
    headsOf c = some M →
      ∀ i x, c.get? i = some [x] → M.get? i = some x
  | [], M, h => by
    intro i x hg
    simp [List.get?] at hg
  | [] :: rest, M, h => by rw [headsOf] at h; cases h
  | (y :: t) :: rest, M, h => by
    rw [headsOf] at h
    cases hr : headsOf rest with
    | none => rw [hr] at h; cases h
    | some M' =>
      rw [hr] at h
      cases h
      intro i x hg
      cases i with
      | zero =>
        simp only [List.get?] at hg
        obtain ⟨h1, _⟩ := List.cons.injEq _ _ _ _ ▸ Option.some_inj.mp hg
        subst h1
        rfl
      | succ i =>
        have := headsOf_of_singleton hr i x (by simpa using hg)
        simpa using this

/-! ## Invariants carried through the search -/

/-- Every candidate entry of `c` draws its elements from the
corresponding entry of the reference sequence `S` (the initial label
index lists). -/
def SlotsIn (S c : Candidates) : Prop :=
  ∀ i l, c.get? i = some l → ∃ l0, S.get? i = some l0 ∧ ∀ x ∈ l, x ∈ l0

/-- The entries below `d` are singletons (already fixed by the search). -/
def PrefFixed (c : Candidates) (d : Nat) : Prop :=
  ∀ i, i < d → ∃ x, c.get? i = some [x]

/-- The fixed singletons below `d` are pairwise distinct (injectivity of
the partial assignment). -/
def PrefDistinct (c : Candidates) (d : Nat) : Prop :=
  ∀ i j x y, i < j → j < d → c.get? i = some [x] → c.get? j = some [y] → x ≠ y

/-- What search results satisfy, relative to a reference candidate
sequence `S`: full length, pairwise-distinct entries, every pattern edge
realised by a graph edge, and every entry drawn from its reference set. -/
def MatchCore (g p : Graph T) (S : Candidates) (M : List Nat) : Prop :=
  M.length = p.node_count ∧
  M.Pairwise (· ≠ ·) ∧
  (∀ u nbs, p.neighbors u = some nbs → ∀ v ∈ nbs,
    ∃ a b nb, M.get? u = some a ∧ M.get? v = some b ∧
      g.neighbors a = some nb ∧ b ∈ nb) ∧
  (∀ i a, M.get? i = some a → ∃ l0, S.get? i = some l0 ∧ a ∈ l0)

theorem SlotsIn_of_WRef {S c c' : Candidates} (hS : SlotsIn S c) (hW : WRef c c') :
    SlotsIn S c' := by
  intro i l' h'
  obtain ⟨l, hl, hmem⟩ := hW.2 i l' h'
  obtain ⟨l0, hl0, hmem0⟩ := hS i l hl
  exact ⟨l0, hl0, fun x hx => hmem0 x (hmem x hx)⟩

/-- A strong refinement leaves fixed singletons in place. -/
theorem SRef_singleton {c c' : Candidates} (h : SRef c c') {i : Nat} {x : Nat}
    (hg : c.get? i = some [x]) : c'.get? i = some [x] := by
  rcases h.2 i with heq | ⟨l, l', hl, hl', hsub, hne⟩
  · rw [heq, hg]
  · rw [hg] at hl
    obtain rfl : l = [x] := Option.some_inj.mp hl.symm
    rcases List.sublist_singleton.mp hsub with rfl | rfl
    · exact absurd rfl hne
    · exact hl'

/-! ## Lemmas on `init_candidates` -/

theorem init_candidates_from_spec {g p : Graph T} :
    ∀ {l : List Nat} {c : Candidates}, init_candidates_from g p l = some c →
      c.length = l.length ∧
      ∀ k i, l.get? k = some i → ∃ lab ls, p.node_label i = some lab ∧
        g.nodes_by_label lab = some ls ∧ c.get? k = some ls
  | [], c, h => by
    rw [init_candidates_from] at h
    cases h
    exact ⟨rfl, fun k i hk => by simp [List.get?] at hk⟩
  | i :: rest, c, h => by
    rw [init_candidates_from] at h
    cases hlab : p.node_label i with
    | none => rw [hlab] at h; cases h
    | some lab =>
      rw [hlab] at h
      dsimp only at h
      cases hls : g.nodes_by_label lab with
      | none => rw [hls] at h; cases h
      | some ls =>
        rw [hls] at h
        dsimp only at h
        cases hrest : init_candidates_from g p rest with
        | none => rw [hrest] at h; cases h
        | some restC =>
          rw [hrest] at h
          dsimp only at h
          cases h
          obtain ⟨hl, hspec⟩ := init_candidates_from_spec hrest
          refine ⟨by simpa using hl, fun k j hk => ?_⟩
          cases k with
          | zero =>
            simp only [List.get?] at hk
            obtain rfl : i = j := Option.some_inj.mp hk
            exact ⟨lab, ls, hlab, hls, rfl⟩
          | succ k =>
            obtain ⟨lab', ls', h1, h2, h3⟩ := hspec k j (by simpa using hk)
            exact ⟨lab', ls', h1, h2, by simpa using h3⟩

theorem init_candidates_spec {g p : Graph T} {c : Candidates}
    (h : init_candidates g p = some c) :
    c.length = p.node_count ∧
    ∀ i, i < p.node_count → ∃ lab ls, p.node_label i = some lab ∧
      g.nodes_by_label lab = some ls ∧ c.get? i = some ls := by
  obtain ⟨hl, hspec⟩ := init_candidates_from_spec h
  refine ⟨by simpa using hl, fun i hi => hspec i i (List.get?_range hi)⟩

theorem init_candidates_from_none {g p : Graph T} {i : Nat} {lab : T}
    (hlab : p.node_label i = some lab) (habs : g.nodes_by_label lab = none) :
    ∀ {l : List Nat}, i ∈ l → init_candidates_from g p l = none
  | [], h => absurd h (List.not_mem_nil i)
  | j :: rest, h => by
    rw [init_candidates_from]
    rcases List.mem_cons.mp h with rfl | h
    · rw [hlab]
      dsimp only
      rw [habs]
    · cases hlabj : p.node_label j with
      | none => rfl
      | some labj =>
        dsimp only
        cases hlsj : g.nodes_by_label labj with
        | none => rfl
        | some lsj =>
          dsimp only
          rw [init_candidates_from_none hlab habs h]

/-! ## Soundness of the backtracking search -/

/-- Soundness of the base case of `search`: at `depth = node_count` under
the carried invariants, the heads of the all-singleton candidate sets
form a sound match. -/
theorem search_base {g p : Graph T} {S c : Candidates} {ms : List (List Nat)}
    (h : (headsOf c).map ([·]) = some ms)
    (hlen : c.length = p.node_count) (hS : SlotsIn S c)
    (hPF : PrefFixed c p.node_count) (hPD : PrefDistinct c p.node_count)
    (hAll : 0 < p.node_count → AllEdges g p c) :
    ∀ M ∈ ms, MatchCore g p S M := by
  cases hM : headsOf c with
  | none => rw [hM] at h; cases h
  | some M0 =>
    rw [hM] at h
    cases h
    intro M hMm
    obtain rfl : M = M0 := by simpa using hMm
    have hMlen : M.length = p.node_count := (headsOf_length hM).trans hlen
    refine ⟨hMlen, ?_, ?_, ?_⟩
    · refine pairwise_ne_of_get? fun i j a b hij hga hgb => ?_
      have hj : j < p.node_count := by
        have := get?_some_lt hgb
        omega
      have hi : i < p.node_count := Nat.lt_trans hij hj
      obtain ⟨x, hx⟩ := hPF i hi
      obtain ⟨y, hy⟩ := hPF j hj
      have hax : M.get? i = some x := headsOf_of_singleton hM i x hx
      have hby : M.get? j = some y := headsOf_of_singleton hM j y hy
      obtain rfl : a = x := by rw [hga] at hax; exact Option.some_inj.mp hax
      obtain rfl : b = y := by rw [hgb] at hby; exact Option.some_inj.mp hby
      exact hPD i j a b hij hj hx hy
    · intro u nbs hnb v hv
      have hu : u < p.node_count := neighbors_some_lt hnb
      obtain ⟨cu, cv, hcu, hcv, hne, htest⟩ :=
        hAll (Nat.pos_of_ne_zero (by omega)) u nbs v hnb hv
      have hvlt : v < p.node_count := by
        have := get?_some_lt hcv
        omega
      obtain ⟨a, ha⟩ := hPF u hu
      obtain ⟨b, hb⟩ := hPF v hvlt
      obtain rfl : cu = [a] := by rw [ha] at hcu; exact (Option.some_inj.mp hcu).symm
      obtain rfl : cv = [b] := by rw [hb] at hcv; exact (Option.some_inj.mp hcv).symm
      obtain ⟨nb, hnbs, hdo⟩ := htest a (List.mem_singleton_self a)
      obtain ⟨z, hz1, hz2⟩ := do_intersect_sorted_sound hdo
      obtain rfl : z = b := List.mem_singleton.mp hz2
      exact ⟨a, z, nb, headsOf_of_singleton hM u a ha,
        headsOf_of_singleton hM v z hb, hnbs, hz1⟩
    · intro i a hga
      obtain ⟨t, ht⟩ := headsOf_get? hM i a hga
      obtain ⟨l0, hl0, hmem⟩ := hS i (a :: t) ht
      exact ⟨l0, hl0, hmem a (List.mem_cons_self _ _)⟩

theorem singleton_some_inj {x y : Nat} (h : (some [x] : Option (List Nat)) = some [y]) :
    x = y := by
  simpa using h

/-- Invariant transfer for one accepted branch of the search loop:
fixing `candidates[depth] = [v]` (with `v` drawn from `candidates[depth]`
and distinct from all previously fixed heads) and re-running
`simple_simulation` to a successful fixpoint re-establishes every
invariant one level deeper. -/
theorem search_branch_invariants {g p : Graph T} {S c : Candidates} {depth v : Nat}
    {c2 : Candidates}
    (hlen : c.length = p.node_count) (hS : SlotsIn S c) (hPF : PrefFixed c depth)
    (hPD : PrefDistinct c depth) (hdlt : depth < p.node_count)
    (hvin : ∃ l, c.get? depth = some l ∧ v ∈ l)
    (hAny : anyHeadEq v (c.take depth) = some false)
    (hsim : simple_simulation g p (c.set depth [v]) = some (c2, true)) :
    c2.length = p.node_count ∧ SlotsIn S c2 ∧ PrefFixed c2 (depth + 1) ∧
    PrefDistinct c2 (depth + 1) ∧ AllEdges g p c2 := by
  obtain ⟨ld, hgd, hvl⟩ := hvin
  have hdc : depth < c.length := by rw [hlen]; exact hdlt
  obtain ⟨hsref, hfix⟩ := simple_simulation_some hsim
  obtain ⟨-, hAllc2⟩ := hfix rfl
  have hlen2 : c2.length = p.node_count := by
    rw [hsref.1, List.length_set, hlen]
  have hSset : SlotsIn S (c.set depth [v]) := by
    intro i l' h'
    by_cases hid : i = depth
    · subst hid
      rw [get?_set_self hdc] at h'
      obtain rfl : l' = [v] := (Option.some_inj.mp h').symm
      obtain ⟨l0, hl0, hmem⟩ := hS i ld hgd
      refine ⟨l0, hl0, fun x hx => ?_⟩
      have hxv : x = v := List.mem_singleton.mp hx
      rw [hxv]
      exact hmem v hvl
    · rw [List.get?_set_ne _ _ (fun hh => hid hh.symm)] at h'
      exact hS i l' h'
  have hS2 : SlotsIn S c2 := SlotsIn_of_WRef hSset (SRef_WRef hsref)
  have hsetF : ∀ i x, c.get? i = some [x] → i ≠ depth →
      (c.set depth [v]).get? i = some [x] := by
    intro i x hg hne
    rw [List.get?_set_ne _ _ (fun hh => hne hh.symm)]
    exact hg
  have hPF2 : PrefFixed c2 (depth + 1) := by
    intro i hi
    by_cases hid : i = depth
    · subst hid
      exact ⟨v, SRef_singleton hsref (get?_set_self hdc)⟩
    · have hi' : i < depth := by omega
      obtain ⟨x, hx⟩ := hPF i hi'
      exact ⟨x, SRef_singleton hsref (hsetF i x hx hid)⟩
  have hPD2 : PrefDistinct c2 (depth + 1) := by
    intro i j x y hij hj hgi hgj
    by_cases hjd : j = depth
    · have hc2d : c2.get? depth = some [v] := SRef_singleton hsref (get?_set_self hdc)
      have hgj2 : c2.get? depth = some [y] := by rw [← hjd]; exact hgj
      have hyv : y = v := by
        rw [hgj2] at hc2d
        exact singleton_some_inj hc2d
      have hi' : i < depth := by omega
      obtain ⟨xi, hxi⟩ := hPF i hi'
      have hxi2 : c2.get? i = some [xi] :=
        SRef_singleton hsref (hsetF i xi hxi (by omega))
      have hxx : x = xi := by
        rw [hgi] at hxi2
        exact singleton_some_inj hxi2
      have htake : (c.take depth).get? i = some [xi] := by
        rw [List.get?_take hi']
        exact hxi
      rw [hxx, hyv]
      exact anyHeadEq_false hAny i xi [] htake
    · have hj' : j < depth := by omega
      have hi' : i < depth := Nat.lt_trans hij hj'
      obtain ⟨xi, hxi⟩ := hPF i hi'
      obtain ⟨yj, hyj⟩ := hPF j hj'
      have hxi2 : c2.get? i = some [xi] :=
        SRef_singleton hsref (hsetF i xi hxi (by omega))
      have hyj2 : c2.get? j = some [yj] :=
        SRef_singleton hsref (hsetF j yj hyj (by omega))
      have hxx : x = xi := by
        rw [hgi] at hxi2
        exact singleton_some_inj hxi2
      have hyy : y = yj := by
        rw [hgj] at hyj2
        exact singleton_some_inj hyj2
      rw [hxx, hyy]
      exact hPD i j xi yj hij hj' hxi hyj
  exact ⟨hlen2, hS2, hPF2, hPD2, hAllc2⟩

/-- Soundness of the search loop, given soundness of the one-level-deeper
continuation `deeper` under the deeper invariants. -/
theorem searchLoop_sound {g p : Graph T} {S c : Candidates} {depth : Nat}
    {deeper : Candidates → Option (List (List Nat))}
    (hlen : c.length = p.node_count) (hS : SlotsIn S c) (hPF : PrefFixed c depth)
    (hPD : PrefDistinct c depth) (hdlt : depth < p.node_count)
    (hdeeper : ∀ c2 ms2, deeper c2 = some ms2 →
      c2.length = p.node_count → SlotsIn S c2 → PrefFixed c2 (depth + 1) →
      PrefDistinct c2 (depth + 1) → AllEdges g p c2 →
      ∀ M ∈ ms2, MatchCore g p S M) :
    ∀ {cd : List Nat} {ms : List (List Nat)},
      searchLoop g p deeper c depth cd = some ms →
      (∀ v ∈ cd, ∃ l, c.get? depth = some l ∧ v ∈ l) →
      ∀ M ∈ ms, MatchCore g p S M
  | [], ms, h, hcd => by
    rw [searchLoop] at h
    cases h
    intro M hM
    exact absurd hM (List.not_mem_nil M)
  | v :: rest, ms, h, hcd => by
    rw [searchLoop] at h
    cases hAny : anyHeadEq v (c.take depth) with
    | none => rw [hAny] at h; cases h
    | some bAny =>
      rw [hAny] at h
      cases bAny with
      | true =>
        dsimp only at h
        exact searchLoop_sound hlen hS hPF hPD hdlt hdeeper h
          (fun w hw => hcd w (List.mem_cons_of_mem _ hw))
      | false =>
        dsimp only at h
        cases hsim : simple_simulation g p (c.set depth [v]) with
        | none => rw [hsim] at h; cases h
        | some pr =>
          obtain ⟨c2, okb⟩ := pr
          rw [hsim] at h
          dsimp only at h
          cases okb with
          | false =>
            rw [if_neg Bool.false_ne_true] at h
            exact searchLoop_sound hlen hS hPF hPD hdlt hdeeper h
              (fun w hw => hcd w (List.mem_cons_of_mem _ hw))
          | true =>
            rw [if_pos rfl] at h
            cases hA : deeper c2 with
            | none => rw [hA] at h; cases h
            | some ms1 =>
              rw [hA] at h
              dsimp only at h
              cases hL : searchLoop g p deeper c depth rest with
              | none => rw [hL] at h; cases h
              | some ms2 =>
                rw [hL] at h
                dsimp only at h
                cases h
                obtain ⟨hlen2, hS2, hPF2, hPD2, hAll2⟩ :=
                  search_branch_invariants hlen hS hPF hPD hdlt
                    (hcd v (List.mem_cons_self _ _)) hAny hsim
                intro M hM
                rcases List.mem_append.mp hM with hM | hM
                · exact hdeeper c2 ms1 hA hlen2 hS2 hPF2 hPD2 hAll2 M hM
                · exact searchLoop_sound hlen hS hPF hPD hdlt hdeeper hL
                    (fun w hw => hcd w (List.mem_cons_of_mem _ hw)) M hM

/-- Soundness of `searchAux` at every fuel, by induction on the fuel. -/
theorem searchAux_sound {g p : Graph T} {S : Candidates} :
    ∀ (F : Nat) (c : Candidates) (depth : Nat) (ms : List (List Nat)),
      searchAux g p F c depth = some ms →
      c.length = p.node_count → SlotsIn S c → PrefFixed c depth →
      PrefDistinct c depth →
      (depth = p.node_count → 0 < p.node_count → AllEdges g p c) →
      ∀ M ∈ ms, MatchCore g p S M := by
  intro F
  induction F with
  | zero =>
    intro c depth ms h hlen hS hPF hPD hAll
    rw [searchAux_zero] at h
    by_cases hdn : depth = p.node_count
    · rw [if_pos hdn] at h
      subst hdn
      exact search_base h hlen hS hPF hPD (hAll rfl)
    · rw [if_neg hdn] at h
      cases h
  | succ F ih =>
    intro c depth ms h hlen hS hPF hPD hAll
    rw [searchAux_succ] at h
    by_cases hdn : depth = p.node_count
    · rw [if_pos hdn] at h
      subst hdn
      exact search_base h hlen hS hPF hPD (hAll rfl)
    · rw [if_neg hdn] at h
      cases hgd : c.get? depth with
      | none => rw [hgd] at h; dsimp only at h; cases h
      | some cd =>
        rw [hgd] at h
        dsimp only at h
        have hdlt : depth < p.node_count := by
          have := get?_some_lt hgd
          omega
        exact searchLoop_sound hlen hS hPF hPD hdlt
          (fun c2 ms2 h2 hl2 hs2 hf2 hd2 ha2 =>
            ih c2 (depth + 1) ms2 h2 hl2 hs2 hf2 hd2 (fun _ _ => ha2))
          h (fun v hv => ⟨cd, hgd, hv⟩)

/-- Soundness of `search` from depth 0. -/
theorem search_sound {g p : Graph T} {S c : Candidates} {ms : List (List Nat)}
    (h : search g p c 0 = some ms) (hlen : c.length = p.node_count)
    (hS : SlotsIn S c) :
    ∀ M ∈ ms, MatchCore g p S M := by
  rw [search] at h
  refine searchAux_sound (p.node_count - 0) c 0 ms h hlen hS
    (fun i hi => absurd hi (by omega))
    (fun i j x y hij hj hgi hgj => absurd hj (by omega))
    (fun hdep hpos => absurd hpos (by omega))

/-! ## Entry-point soundness -/

theorem assocFind_mem {α β : Type} [DecidableEq α] :
    ∀ {l : List (α × β)} {a : α} {b : β}, assocFind l a = some b → (a, b) ∈ l
  | [], a, b, h => by rw [assocFind] at h; cases h
  | (k, v) :: rest, a, b, h => by
    rw [assocFind] at h
    by_cases hk : k = a
    · rw [if_pos hk] at h
      obtain rfl : v = b := Option.some_inj.mp h
      subst hk
      exact List.mem_cons_self _ _
    · rw [if_neg hk] at h
      exact List.mem_cons_of_mem _ (assocFind_mem h)

/-- The label index is consistent with the label map: every node listed
under a label is a valid node id carrying that label.  Holds for every
graph the builder produces; it is the hypothesis under which match
soundness is stated. -/
def WellIdx (g : Graph T) : Prop :=
  ∀ pr ∈ g.label_idx, ∀ x ∈ pr.2, x < g.node_count ∧
    assocFind g.node_labels x = some pr.1

/-- Every id stored in the label index is a valid node id (the part of
`WellIdx` that C10 needs). -/
def IdxIdsValid (g : Graph T) : Prop :=
  ∀ pr ∈ g.label_idx, ∀ x ∈ pr.2, x < g.node_count

/-- Full soundness of one match, as the specification states it: correct
length, injectivity, edge preservation and label preservation. -/
def MatchSound (g p : Graph T) (M : List Nat) : Prop :=
  M.length = p.node_count ∧
  M.Pairwise (· ≠ ·) ∧
  (∀ u nbs, p.neighbors u = some nbs → ∀ v ∈ nbs,
    ∃ a b nb, M.get? u = some a ∧ M.get? v = some b ∧
      g.neighbors a = some nb ∧ b ∈ nb) ∧
  (∀ i a, M.get? i = some a →
    ∃ lab, p.node_label i = some lab ∧ g.node_label a = some lab)

/-- Both entry points have the shape init → simulation → search, and the
simulation only weakly refines the initial candidates, so all their
matches satisfy `MatchCore` relative to the initial label-index lists. -/
theorem iso_run_core {g p : Graph T} {c0 c1 : Candidates} {ms : List (List Nat)}
    (hinit : init_candidates g p = some c0) (hW : WRef c0 c1)
    (hsearch : search g p c1 0 = some ms) :
    ∀ M ∈ ms, MatchCore g p c0 M := by
  obtain ⟨hlen0, -⟩ := init_candidates_spec hinit
  have hlen1 : c1.length = p.node_count := by rw [hW.1, hlen0]
  have hS : SlotsIn c0 c1 :=
    SlotsIn_of_WRef (fun i l h => ⟨l, h, fun x hx => hx⟩) hW
  exact search_sound hsearch hlen1 hS

theorem simple_iso_core {g p : Graph T} {ms : List (List Nat)}
    (h : simple_iso g p = some ms) :
    ∃ c0, init_candidates g p = some c0 ∧ ∀ M ∈ ms, MatchCore g p c0 M := by
  rw [simple_iso] at h
  cases hinit : init_candidates g p with
  | none => rw [hinit] at h; cases h
  | some c0 =>
    rw [hinit] at h
    dsimp only at h
    cases hsim : simple_simulation g p c0 with
    | none => rw [hsim] at h; cases h
    | some pr =>
      obtain ⟨c1, b⟩ := pr
      rw [hsim] at h
      dsimp only at h
      exact ⟨c0, rfl,
        iso_run_core hinit (SRef_WRef (simple_simulation_some hsim).1) h⟩

theorem dual_iso_core {fuel : Nat} {g p : Graph T} {ms : List (List Nat)}
    (h : dual_iso fuel g p = some ms) :
    ∃ c0, init_candidates g p = some c0 ∧ ∀ M ∈ ms, MatchCore g p c0 M := by
  rw [dual_iso] at h
  cases hinit : init_candidates g p with
  | none => rw [hinit] at h; cases h
  | some c0 =>
    rw [hinit] at h
    dsimp only at h
    cases hsim : dual_simulation_fuel g p fuel c0 with
    | none => rw [hsim] at h; cases h
    | some pr =>
      obtain ⟨c1, b⟩ := pr
      rw [hsim] at h
      dsimp only at h
      exact ⟨c0, rfl, iso_run_core hinit (dsf_WRef hsim) h⟩

/-- Lift `MatchCore` (membership in the initial label-index lists) to
the label-preservation and id-validity statements, using the
well-formedness of the label index. -/
theorem core_to_sound {g p : Graph T} {c0 : Candidates} {M : List Nat}
    (hinit : init_candidates g p = some c0) (hidx : WellIdx g)
    (hcore : MatchCore g p c0 M) : MatchSound g p M := by
  obtain ⟨-, hspec⟩ := init_candidates_spec hinit
  obtain ⟨h1, h2, h3, h4⟩ := hcore
  refine ⟨h1, h2, h3, fun i a hga => ?_⟩
  have hilt : i < p.node_count := by
    have := get?_some_lt hga
    omega
  obtain ⟨lab, ls, hlab, hls, hc0⟩ := hspec i hilt
  obtain ⟨l0, hl0, ham⟩ := h4 i a hga
  rw [hc0] at hl0
  obtain rfl : ls = l0 := Option.some_inj.mp hl0
  rw [Graph.nodes_by_label] at hls
  obtain ⟨hlt, hfind⟩ := hidx (lab, ls) (assocFind_mem hls) a ham
  refine ⟨lab, hlab, ?_⟩
  rw [Graph.node_label, if_pos hlt]
  exact hfind

theorem core_to_valid {g p : Graph T} {c0 : Candidates} {M : List Nat}
    (hinit : init_candidates g p = some c0) (hidx : IdxIdsValid g)
    (hcore : MatchCore g p c0 M) :
    M.length = p.node_count ∧ ∀ a ∈ M, a < g.node_count := by
  obtain ⟨-, hspec⟩ := init_candidates_spec hinit
  obtain ⟨h1, -, -, h4⟩ := hcore
  refine ⟨h1, fun a ha => ?_⟩
  obtain ⟨i, hga⟩ := mem_exists_get? ha
  have hilt : i < p.node_count := by
    have := get?_some_lt hga
    omega
  obtain ⟨lab, ls, hlab, hls, hc0⟩ := hspec i hilt
  obtain ⟨l0, hl0, ham⟩ := h4 i a hga
  rw [hc0] at hl0
  obtain rfl : ls = l0 := Option.some_inj.mp hl0
  rw [Graph.nodes_by_label] at hls
  exact hidx (lab, ls) (assocFind_mem hls) a ham

/-! ## Remaining helper lemmas -/

theorem assocFind_none_of_not_mem_keys {α β : Type} [DecidableEq α] :
    ∀ {l : List (α × β)} {a : α}, a ∉ l.map Prod.fst → assocFind l a = none
  | [], a, _ => by rw [assocFind]
  | (k, v) :: rest, a, h => by
    rw [assocFind]
    have hk : k ≠ a := by
      intro hh
      exact h (by simp [hh])
    rw [if_neg hk]
    exact assocFind_none_of_not_mem_keys (fun hh => h (by simp [hh]))

/-- A state on which a pass reports no change makes the wrapper return
`true` immediately: fixpoints are recognised. -/
theorem simple_simulation_of_fixpoint {g p : Graph T} {c : Candidates}
    (h : simplePass g p c = .ok c false) : simple_simulation g p c = some (c, true) := by
  rw [simple_simulation, simple_simulation_fuel, h]

theorem simple_simulation_false_reason {g p : Graph T} {c c2 : Candidates}
    (h : simple_simulation g p c = some (c2, false)) :
    ∃ u nbs v cu cv b, p.neighbors u = some nbs ∧ v ∈ nbs ∧
      c2.get? u = some cu ∧ c2.get? v = some cv ∧
      filterCands g cv cu = some ([], b) :=
  ssf_false_reason h

/-! ## Concrete instances

The builder states below are reachable through `add_node` /
`add_relationship` chains (checked for `bldDup` in the C5 theorem); the
graphs are produced by `buildWith` with the staged maps iterated in
insertion order unless stated otherwise. -/

/-- Two nodes labelled a, edges 0→0 and 1→0. -/
def bldLoop : GraphBuilder Char :=
  ⟨2, 2, [(0, 'a'), (1, 'a')], [(0, [0]), (1, [0])]⟩

def gLoop : Graph Char := bldLoop.buildWith bldLoop.adjacency_lists bldLoop.node_labels

/-- One pattern node labelled a with a self-loop 0→0. -/
def bldPLoop : GraphBuilder Char := ⟨1, 1, [(0, 'a')], [(0, [0])]⟩

def pLoop : Graph Char := bldPLoop.buildWith bldPLoop.adjacency_lists bldPLoop.node_labels

/-- Nodes 0:a, 1:b, 2:b with one edge 0→1. -/
def bldPr : GraphBuilder Char :=
  ⟨3, 1, [(0, 'a'), (1, 'b'), (2, 'b')], [(0, [1])]⟩

def gPr : Graph Char := bldPr.buildWith bldPr.adjacency_lists bldPr.node_labels

/-- Pattern 0:a → 1:b. -/
def bldPPr : GraphBuilder Char := ⟨2, 1, [(0, 'a'), (1, 'b')], [(0, [1])]⟩

def pPr : Graph Char := bldPPr.buildWith bldPPr.adjacency_lists bldPPr.node_labels

/-- One pattern node labelled a and no edges. -/
def pNoEdge : Graph Char :=
  (⟨1, 0, [(0, 'a')], []⟩ : GraphBuilder Char).buildWith [] [(0, 'a')]

/-- The empty pattern. -/
def pZero : Graph Char := (GraphBuilder.new Char).buildWith [] []

/-- One pattern node labelled z (a label absent from every graph used
here). -/
def pAbsent : Graph Char :=
  (⟨1, 0, [(0, 'z')], []⟩ : GraphBuilder Char).buildWith [] [(0, 'z')]

/-- Two nodes, both labelled a, no edges. -/
def bldDup : GraphBuilder Char := ⟨2, 0, [(0, 'a'), (1, 'a')], []⟩

/-- `bldDup` built while the label map iteration yields node 1 before
node 0 (a legal `HashMap` iteration order). -/
def gDup : Graph Char := bldDup.buildWith [] [(1, 'a'), (0, 'a')]

/-- Two nodes labelled a with staged (unsorted) edge list 0→1, 0→0. -/
def bldAdjU : GraphBuilder Char := ⟨2, 2, [(0, 'a'), (1, 'a')], [(0, [1, 0])]⟩

def gAdjU : Graph Char := bldAdjU.buildWith bldAdjU.adjacency_lists bldAdjU.node_labels

/-- The dual-simulation pass restores the initial state of the self-loop
instance while still reporting a change, so the loop never exits. -/
theorem dual_sim_loop_diverges : ∀ f, dual_simulation_fuel gLoop pLoop f [[0, 1]] = none := by
  intro f
  induction f with
  | zero => rw [dual_simulation_fuel]
  | succ f ih =>
    rw [dual_simulation_fuel]
    have hp : dualPass gLoop pLoop [[0, 1]] = .ok [[0, 1]] true := by decide
    rw [hp]
    exact ih

theorem dual_iso_loop_diverges : ∀ f, dual_iso f gLoop pLoop = none := by
  intro f
  have hinit : init_candidates gLoop pLoop = some [[0, 1]] := by decide
  show (match init_candidates gLoop pLoop with
    | none => none
    | some c =>
      match dual_simulation_fuel gLoop pLoop f c with
      | none => none
      | some (c1, _) => search gLoop pLoop c1 0) = none
  rw [hinit]
  dsimp only
  rw [dual_sim_loop_diverges f]

/-! ## The claims -/

/-- C1: every match returned by `simple_iso` or `dual_iso` is sound —
for every pattern edge `(u, v)` the pair `(M[u], M[v])` is a graph edge,
`M` is injective, and the graph label of `M[u]` equals the pattern label
of `u` — for every graph whose label index is consistent with its label
map (which the builder guarantees). -/
theorem C1_match_soundness {T : Type} [DecidableEq T] (g p : Graph T) :
    (∀ ms, simple_iso g p = some ms → WellIdx g → ∀ M ∈ ms, MatchSound g p M) ∧
    (∀ f ms, dual_iso f g p = some ms → WellIdx g → ∀ M ∈ ms, MatchSound g p M) := by
  constructor
  · intro ms h hidx M hM
    obtain ⟨c0, hinit, hcore⟩ := simple_iso_core h
    exact core_to_sound hinit hidx (hcore M hM)
  · intro f ms h hidx M hM
    obtain ⟨c0, hinit, hcore⟩ := dual_iso_core h
    exact core_to_sound hinit hidx (hcore M hM)

theorem C1_match_soundness_witness :
    simple_iso gLoop pLoop = some [[0]] ∧ MatchSound gLoop pLoop [0] :=
  ⟨by decide,
   (C1_match_soundness gLoop pLoop).1 [[0]] (by decide) (by unfold WellIdx; decide) [0] (by decide)⟩

/-- C2: the claim that `simple_iso` and `dual_iso` always return the same
match set is false: on the self-loop pattern instance `simple_iso`
returns the single match `[0]` while `dual_iso` never returns
(`dual_simulation` loops forever, so no amount of fuel produces a
result). -/
theorem C2_simple_dual_disagree :
    simple_iso gLoop pLoop = some [[0]] ∧ ∀ f, dual_iso f gLoop pLoop = none :=
  ⟨by decide, dual_iso_loop_diverges⟩

/-- C3: the exported `dual_iso` (the one in `src/iso.rs`, re-exported by
`lib.rs`) builds initial candidates from the label index, refines them
with `dual_simulation` — not `simple_simulation`: on the concrete
instance the two refinements produce different candidate sets — to a
state on which another dual pass reports no change, and hands the result
to the backtracking search. -/
theorem C3_dual_iso_pipeline :
    (∀ {T2 : Type} [DecidableEq T2] (f : Nat) (g p : Graph T2),
      dual_iso f g p =
        match init_candidates g p with
        | none => none
        | some c =>
          match dual_simulation_fuel g p f c with
          | none => none
          | some (c1, _) => search g p c1 0) ∧
    init_candidates gPr pPr = some [[0], [1, 2]] ∧
    dual_simulation_fuel gPr pPr 9 [[0], [1, 2]] = some ([[0], [1]], true) ∧
    simple_simulation gPr pPr [[0], [1, 2]] = some ([[0], [1, 2]], true) ∧
    dualPass gPr pPr [[0], [1]] = .ok [[0], [1]] false ∧
    dual_iso 9 gPr pPr = some [[0, 1]] :=
  ⟨fun f g p => rfl, by decide, by decide, by decide, by decide, by decide⟩

/-- C4 counterexample: on a pattern with the unused label z, the label
lookup and both entry points panic (`none`), rather than returning an
empty sequence / empty match list as the claim states. -/
theorem C4_counterexample :
    pAbsent.node_label 0 = some 'z' ∧
    gPr.nodes_by_label 'z' = none ∧ gPr.nodes_by_label 'z' ≠ some [] ∧
    simple_iso gPr pAbsent = none ∧ simple_iso gPr pAbsent ≠ some [] ∧
    dual_iso 5 gPr pAbsent = none := by decide

/-- C4 as amended: `nodes_by_label` on a label absent from the index
panics (`unwrap` of `None`, modelled as `none`), and both entry points
panic — rather than return an empty match sequence — on any pattern
containing a node whose label does not occur in the graph. -/
theorem C4_absent_label_panics {T : Type} [DecidableEq T] (g p : Graph T)
    (i : Nat) (lab : T) (hi : i < p.node_count)
    (hlab : p.node_label i = some lab)
    (habs : lab ∉ g.label_idx.map Prod.fst) :
    g.nodes_by_label lab = none ∧ simple_iso g p = none ∧
    ∀ f, dual_iso f g p = none := by
  have hnone : g.nodes_by_label lab = none := assocFind_none_of_not_mem_keys habs
  have hinit : init_candidates g p = none :=
    init_candidates_from_none hlab hnone (List.mem_range.mpr hi)
  refine ⟨hnone, ?_, ?_⟩
  · show (match init_candidates g p with
      | none => none
      | some c =>
        match simple_simulation g p c with
        | none => none
        | some (c1, _) => search g p c1 0) = none
    rw [hinit]
  · intro f
    show (match init_candidates g p with
      | none => none
      | some c =>
        match dual_simulation_fuel g p f c with
        | none => none
        | some (c1, _) => search g p c1 0) = none
    rw [hinit]

theorem C4_absent_label_panics_witness :
    gPr.nodes_by_label 'z' = none ∧ simple_iso gPr pAbsent = none ∧
    dual_iso 7 gPr pAbsent = none :=
  ⟨(C4_absent_label_panics gPr pAbsent 0 'z' (by decide) (by decide) (by decide)).1,
   (C4_absent_label_panics gPr pAbsent 0 'z' (by decide) (by decide) (by decide)).2.1,
   (C4_absent_label_panics gPr pAbsent 0 'z' (by decide) (by decide) (by decide)).2.2 7⟩

/-- C5: the builder sorts each staged adjacency list, but it populates
the label index by iterating the unordered label map without sorting, so
an iteration order that yields node 1 before node 0 produces the
non-ascending index entry `[1, 0]` for label a.  The builder state is
reachable by the staging API, and the adjacency side is sorted as
claimed. -/
theorem C5_label_index_unsorted :
    (((GraphBuilder.new Char).add_node 0 'a').bind fun b => b.add_node 1 'a') =
      some bldDup ∧
    List.Perm [(1, 'a'), (0, 'a')] bldDup.node_labels ∧
    gDup.nodes_by_label 'a' = some [1, 0] ∧
    sortedAsc [1, 0] = false ∧
    gAdjU.neighbors 0 = some [0, 1] ∧
    sortedAsc [0, 1] = true := by decide

/-- C6 counterexample: with the one-node edge-free pattern and the
initially empty candidate set, both simulation procedures return `true`
although a candidate set is empty, refuting "true exactly when ... all
candidate sets non-empty". -/
theorem C6_counterexample :
    simple_simulation gPr pNoEdge [[]] = some ([[]], true) ∧
    dual_simulation_fuel gPr pNoEdge 1 [[]] = some ([[]], true) ∧
    List.any ([[]] : List (List Nat)) List.isEmpty = true := by decide

/-- C6 as amended: a `false` return always exhibits a pattern edge whose
refined set came out empty at the returned state (for dual simulation,
an empty refined source list or an empty accumulated target union);
`simple_simulation` returns `true` exactly on reaching a state on which
a pass reports no change, and at that state every pattern-edge source
set is present and non-empty (`AllEdges`); `dual_simulation` returns
`true` only off the back of a pass reporting no change.  Candidate sets
of pattern nodes with no outgoing pattern edges are never inspected. -/
theorem C6_simulation_contract {T : Type} [DecidableEq T] (g p : Graph T) :
    (∀ c c2, simple_simulation g p c = some (c2, true) →
      simplePass g p c2 = .ok c2 false ∧ AllEdges g p c2) ∧
    (∀ c, simplePass g p c = .ok c false → simple_simulation g p c = some (c, true)) ∧
    (∀ c c2, simple_simulation g p c = some (c2, false) →
      ∃ u nbs v cu cv b, p.neighbors u = some nbs ∧ v ∈ nbs ∧
        c2.get? u = some cu ∧ c2.get? v = some cv ∧
        filterCands g cv cu = some ([], b)) ∧
    (∀ f c c2, dual_simulation_fuel g p f c = some (c2, true) →
      ∃ c0, dualPass g p c0 = .ok c2 false) ∧
    (∀ f c c2, dual_simulation_fuel g p f c = some (c2, false) →
      ∃ u nbs v cu cv ug vg b2, p.neighbors u = some nbs ∧ v ∈ nbs ∧
        c2.get? u = some cu ∧ c2.get? v = some cv ∧
        dualCollect g cv cu [] [] false = some (ug, vg, b2) ∧
        (ug = [] ∨ vg = [])) := by
  refine ⟨?_, ?_, ?_, ?_, ?_⟩
  · intro c c2 h
    exact (simple_simulation_some h).2 rfl
  · intro c h
    exact simple_simulation_of_fixpoint h
  · intro c c2 h
    exact simple_simulation_false_reason h
  · intro f c c2 h
    exact dsf_true_pass h
  · intro f c c2 h
    exact dsf_false_reason h

theorem C6_simulation_contract_witness :
    simple_simulation gPr pPr [[0], [1, 2]] = some ([[0], [1, 2]], true) ∧
    (simplePass gPr pPr [[0], [1, 2]] = .ok [[0], [1, 2]] false ∧
      AllEdges gPr pPr [[0], [1, 2]]) :=
  ⟨by decide,
   (C6_simulation_contract gPr pPr).1 [[0], [1, 2]] [[0], [1, 2]] (by decide)⟩

/-- C7: monotonicity holds, but the termination half of the claim is
false: on the self-loop pattern instance every dual pass reports a
change yet restores the same state (the write of the refined source set
overwrites the just-shrunk target set, since the edge has
`u_p = v_p`), so `dual_simulation` never terminates — no fuel makes the
loop return. -/
theorem C7_dual_simulation_divergence :
    (∀ f, dual_simulation_fuel gLoop pLoop f [[0, 1]] = none) ∧
    dualPass gLoop pLoop [[0, 1]] = .ok [[0, 1]] true ∧
    init_candidates gLoop pLoop = some [[0, 1]] :=
  ⟨dual_sim_loop_diverges, by decide, by decide⟩

/-- C8: `union_into_sorted` caches `m = left.len()` before the merge
loop and does not update it when an insertion grows `left`, so even on
strictly ascending inputs the result can be unsorted; and
`intersect_sorted` fails to deduplicate (its `prev` update reads the
zeroed output buffer), so on ascending inputs with duplicates the
intersection keeps duplicates.  The two-pointer test itself agrees with
non-emptiness on these inputs. -/
theorem C8_union_into_sorted_bug :
    strictAsc [1, 5] = true ∧ strictAsc [2, 3, 4] = true ∧
    union_into_sorted [1, 5] [2, 3, 4] = [1, 2, 5, 3, 4] ∧
    sortedAsc [1, 2, 5, 3, 4] = false ∧
    sortedAsc [2, 2] = true ∧
    intersect_sorted [2, 2] [2, 2] = [2, 2] ∧
    (do_intersect_sorted [2, 2] [2, 2] = true ∧ intersect_sorted [2, 2] [2, 2] ≠ []) := by
  decide

/-- C9: a pattern with zero nodes yields exactly one match — the empty
assignment — from both entry points (for `dual_iso`, with at least one
unit of loop fuel). -/
theorem C9_empty_pattern {T : Type} [DecidableEq T] (g p : Graph T)
    (h : p.node_count = 0) :
    simple_iso g p = some [[]] ∧ ∀ f, 1 ≤ f → dual_iso f g p = some [[]] := by
  have hinit : init_candidates g p = some [] := by
    rw [init_candidates, h]
    rfl
  have hsearch : search g p [] 0 = some [[]] := by
    rw [search, h, searchAux_zero, if_pos h.symm]
    rfl
  have hpass : simplePass g p [] = .ok [] false := by
    rw [simplePass, h]
    rfl
  have hsim : simple_simulation g p [] = some ([], true) := by
    rw [simple_simulation, simple_simulation_fuel, hpass]
  constructor
  · show (match init_candidates g p with
      | none => none
      | some c =>
        match simple_simulation g p c with
        | none => none
        | some (c1, _) => search g p c1 0) = some [[]]
    rw [hinit]
    dsimp only
    rw [hsim]
    dsimp only
    exact hsearch
  · intro f hf
    obtain ⟨f2, rfl⟩ : ∃ k, f = k + 1 := ⟨f - 1, by omega⟩
    have hdp : dualPass g p [] = .ok [] false := by
      rw [dualPass, h]
      rfl
    have hdsim : dual_simulation_fuel g p (f2 + 1) [] = some ([], true) := by
      rw [dual_simulation_fuel, hdp]
    show (match init_candidates g p with
      | none => none
      | some c =>
        match dual_simulation_fuel g p (f2 + 1) c with
        | none => none
        | some (c1, _) => search g p c1 0) = some [[]]
    rw [hinit]
    dsimp only
    rw [hdsim]
    dsimp only
    exact hsearch

theorem C9_empty_pattern_witness :
    simple_iso gPr pZero = some [[]] ∧ dual_iso 1 gPr pZero = some [[]] :=
  ⟨(C9_empty_pattern gPr pZero (by decide)).1,
   (C9_empty_pattern gPr pZero (by decide)).2 1 (by decide)⟩

/-- C10: every match emitted by either entry point has length
`pattern.node_count()` and every entry is a valid graph node id,
provided every id stored in the label index is valid (which the builder
guarantees, since it only stores staged node ids). -/
theorem C10_match_wellformed {T : Type} [DecidableEq T] (g p : Graph T) :
    (∀ ms, simple_iso g p = some ms → IdxIdsValid g →
      ∀ M ∈ ms, M.length = p.node_count ∧ ∀ a ∈ M, a < g.node_count) ∧
    (∀ f ms, dual_iso f g p = some ms → IdxIdsValid g →
      ∀ M ∈ ms, M.length = p.node_count ∧ ∀ a ∈ M, a < g.node_count) := by
  constructor
  · intro ms h hidx M hM
    obtain ⟨c0, hinit, hcore⟩ := simple_iso_core h
    exact core_to_valid hinit hidx (hcore M hM)
  · intro f ms h hidx M hM
    obtain ⟨c0, hinit, hcore⟩ := dual_iso_core h
    exact core_to_valid hinit hidx (hcore M hM)

theorem C10_match_wellformed_witness :
    dual_iso 9 gPr pPr = some [[0, 1]] ∧
    ([0, 1] : List Nat).length = pPr.node_count ∧ ∀ a ∈ ([0, 1] : List Nat), a < gPr.node_count :=
  ⟨by decide,
   ((C10_match_wellformed gPr pPr).2 9 [[0, 1]] (by decide) (by unfold IdxIdsValid; decide) [0, 1] (by decide)).1,
   ((C10_match_wellformed gPr pPr).2 9 [[0, 1]] (by decide) (by unfold IdxIdsValid; decide) [0, 1] (by decide)).2⟩

end DualIso
